import Mathlib

/-!
Verification development for the vue-router navigation engine.

The JavaScript sources are shallowly embedded as executable Lean
definitions:

* `src/src/util/route.js` — `createRoute`, `START`, `isSameRoute`,
  `isObjectEqual`, the `History` class (`transitionTo`,
  `confirmTransition`, `updateRoute`, `onReady`), `resolveQueue`,
  `extractGuards` and friends;
* `src/src/util/location.js` — `runQueue`;
* `src/src/util/query.js` — `parseQuery`, `stringifyQuery`, `encode`.

JavaScript object identity is modelled by numeric ids (`rid` for routes,
record ids for `RouteRecord`s); machine-level JS strings are modelled as
`List Char`/`String`; continuation-passing guards are modelled by an
explicit behaviour datatype, and the single-threaded event order of the
engine is recorded in an explicit event trace.
-/

set_option linter.unusedVariables false

namespace VueRouterSpec

/-! ### Definitions: resolveQueue (src/src/util/route.js lines 483-504)

Route records are compared by JavaScript object identity (`!==`); the
model represents each record by a value of a type `α` with decidable
equality, equality of values standing for identity of objects. -/

/-- Model of the scan loop of `resolveQueue`: starting at index `i` with
`fuel` remaining iterations (the loop runs while `i < max`, so `fuel`
starts at `max`), return the first index at which `current[i] !== next[i]`
(out-of-range access yields `undefined`, i.e. `none`, which differs from
any record), or the index after the last iteration. -/
def resolveLoop {α : Type} [DecidableEq α] (current next : List α) : Nat → Nat → Nat
  | 0, i => i
  | fuel + 1, i => if current[i]? ≠ next[i]? then i else resolveLoop current next fuel (i + 1)

/-- Index `i` computed by the loop of `resolveQueue`: the first index at
which the two matched chains differ, scanning up to
`Math.max(current.length, next.length)`. -/
def firstDiffIdx {α : Type} [DecidableEq α] (current next : List α) : Nat :=
  resolveLoop current next (Nat.max current.length next.length) 0

/-- Model of `resolveQueue` from src/src/util/route.js: diff the current
and next matched chains, returning `(updated, activated, deactivated)` as
`next.slice(0, i)`, `next.slice(i)`, `current.slice(i)`. -/
def resolveQueue {α : Type} [DecidableEq α] (current next : List α) :
    List α × List α × List α :=
  (next.take (firstDiffIdx current next),
   next.drop (firstDiffIdx current next),
   current.drop (firstDiffIdx current next))

/-! ### Definitions: runQueue (src/src/util/location.js lines 99-124)

The queue runner is continuation-passing: `fn(queue[index], next)` may or
may not invoke the continuation `next`.  The model abstracts `fn` by a
predicate `calls : G → Bool` telling, for each queue item, whether `fn`
eventually invokes that item's continuation; a `false` item is started
but stalls forever.  `runQueue` returns the list of indices of items that
were started and the number of times `cb` was invoked. -/

/-- Model of the recursive `step` function of `runQueue` starting at
index `i`: index past the end invokes `cb` (count 1); a `null` item is
skipped without being started; a real item is started, and the rest of
the queue runs only if the item invokes its continuation. -/
def runQueueSteps {G : Type} (calls : G → Bool) : List (Option G) → Nat → List Nat × Nat
  | [], _ => ([], 1)
  | none :: rest, i => runQueueSteps calls rest (i + 1)
  | some g :: rest, i =>
    if calls g then
      ((runQueueSteps calls rest (i + 1)).1.cons i, (runQueueSteps calls rest (i + 1)).2)
    else ([i], 0)

/-- Model of `runQueue` from src/src/util/location.js: run the queue from
index 0. -/
def runQueue {G : Type} (queue : List (Option G)) (calls : G → Bool) : List Nat × Nat :=
  runQueueSteps calls queue 0

/-! ### Definitions: JavaScript query values

Query and params dictionaries are modelled as insertion-ordered
association lists with distinct keys (JS objects).  Query values follow
the source's Flow types: a value is a string, `null`, `undefined`, or an
array of strings/nulls (`QSv` is the element type of such arrays). -/

/-- Element of a JS query-value array: a string, `null` or `undefined`. -/
inductive QSv where
  | str (s : String)
  | null
  | undef
deriving DecidableEq, Repr

/-- JS query value: scalar string, `null`, `undefined`, or an array. -/
inductive QVal where
  | str (s : String)
  | null
  | undef
  | arr (xs : List QSv)
deriving DecidableEq, Repr

/-- Property read `res[key]` on a JS-object dictionary: `none` models
`undefined` (key absent). -/
def dictGet : List (String × QVal) → String → Option QVal
  | [], _ => none
  | (k, v) :: rest, key => if k = key then some v else dictGet rest key

/-- Property write `res[key] = v` on a JS-object dictionary: overwrite in
place if the key exists, otherwise append (JS insertion order). -/
def dictSet : List (String × QVal) → String → QVal → List (String × QVal)
  | [], key, v => [(key, v)]
  | (k, w) :: rest, key, v =>
    if k = key then (key, v) :: rest else (k, w) :: dictSet rest key v

/-- JS `String(elem)` for an array element inside `Array.prototype.join`:
`null` and `undefined` become the empty string. -/
def QSv.joinStr : QSv → String
  | .str s => s
  | .null => ""
  | .undef => ""

/-- JS `String(elem)` coercion of an array element in a direct position
(not inside a join): `null` prints as "null", `undefined` as "undefined". -/
def QSv.jsStr : QSv → String
  | .str s => s
  | .null => "null"
  | .undef => "undefined"

/-- JS `String(v)` coercion of a query value. -/
def jsString : QVal → String
  | .str s => s
  | .null => "null"
  | .undef => "undefined"
  | .arr xs => String.intercalate "," (xs.map QSv.joinStr)

/-! ### Definitions: query codec (src/src/util/query.js)

`encodeURIComponent`/`decodeURIComponent` are platform built-ins used by
the source; they are modelled at the character level over full Unicode
(UTF-8 percent-encoding with uppercase hex, RFC-conformant decoding that
rejects malformed escapes). -/

/-- Uppercase hex digit, as produced by `encodeURIComponent`. -/
def hexDigitUpper (n : Nat) : Char :=
  if n < 10 then Char.ofNat (48 + n) else Char.ofNat (55 + n)

/-- Lowercase hex digit, as produced by `Number.prototype.toString(16)`. -/
def hexDigitLower (n : Nat) : Char :=
  if n < 10 then Char.ofNat (48 + n) else Char.ofNat (87 + n)

/-- UTF-8 byte sequence of a code point. -/
def utf8Bytes (n : Nat) : List Nat :=
  if n < 0x80 then [n]
  else if n < 0x800 then [0xC0 + n / 0x40, 0x80 + n % 0x40]
  else if n < 0x10000 then
    [0xE0 + n / 0x1000, 0x80 + n / 0x40 % 0x40, 0x80 + n % 0x40]
  else
    [0xF0 + n / 0x40000, 0x80 + n / 0x1000 % 0x40, 0x80 + n / 0x40 % 0x40, 0x80 + n % 0x40]

/-- Percent-escape of one byte with uppercase hex digits. -/
def pctEncodeByte (b : Nat) : List Char :=
  [Char.ofNat 37, hexDigitUpper (b / 16), hexDigitUpper (b % 16)]

/-- Characters `encodeURIComponent` leaves unescaped:
`A-Z a-z 0-9 - _ . ! ~ * ' ( )`. -/
def uriUnreserved (c : Char) : Bool :=
  (65 ≤ c.toNat && c.toNat ≤ 90) || (97 ≤ c.toNat && c.toNat ≤ 122) ||
  (48 ≤ c.toNat && c.toNat ≤ 57) ||
  c.toNat = 45 || c.toNat = 95 || c.toNat = 46 || c.toNat = 33 || c.toNat = 126 ||
  c.toNat = 42 || c.toNat = 39 || c.toNat = 40 || c.toNat = 41

/-- Model of the platform `encodeURIComponent`. -/
def encodeURIComponentM (s : List Char) : List Char :=
  s.flatMap (fun c =>
    if uriUnreserved c then [c]
    else (utf8Bytes c.toNat).flatMap pctEncodeByte)

/-- Model of `.replace(encodeReserveRE, encodeReserveReplacer)` from
src/src/util/query.js lines 6-7: the characters `! ' ( ) *` are replaced
by `'%' + c.charCodeAt(0).toString(16)` (lowercase hex). -/
def encodeReserveReplace (s : List Char) : List Char :=
  s.flatMap (fun c =>
    if c.toNat = 33 ∨ c.toNat = 39 ∨ c.toNat = 40 ∨ c.toNat = 41 ∨ c.toNat = 42 then
      [Char.ofNat 37, hexDigitLower (c.toNat / 16), hexDigitLower (c.toNat % 16)]
    else [c])

/-- Model of `.replace(commaRE, ',')` from src/src/util/query.js line 10:
every occurrence of the literal substring `%2C` becomes a comma. -/
def replacePct2C : List Char → List Char
  | [] => []
  | [c] => [c]
  | [c, d] => [c, d]
  | c :: d :: e :: rest =>
    if c = Char.ofNat 37 ∧ d = Char.ofNat 50 ∧ e = Char.ofNat 67 then
      Char.ofNat 44 :: replacePct2C rest
    else c :: replacePct2C (d :: e :: rest)

/-- Model of `encode` from src/src/util/query.js lines 16-18:
`encodeURIComponent` followed by the reserve-character escape and the
comma un-escape. -/
def encode (s : List Char) : List Char :=
  replacePct2C (encodeReserveReplace (encodeURIComponentM s))

/-- Numeric value of a hex digit (either case), `none` otherwise. -/
def hexVal (c : Char) : Option Nat :=
  if 48 ≤ c.toNat ∧ c.toNat ≤ 57 then some (c.toNat - 48)
  else if 65 ≤ c.toNat ∧ c.toNat ≤ 70 then some (c.toNat - 55)
  else if 97 ≤ c.toNat ∧ c.toNat ≤ 102 then some (c.toNat - 87)
  else none

/-- Token of a percent-encoded string: a literal character or an escaped
byte. -/
inductive PctTok where
  | lit (c : Char)
  | byte (b : Nat)
deriving DecidableEq, Repr

/-- First phase of `decodeURIComponent`: cut the input into literal
characters and `%XX` byte escapes; a dangling or malformed escape throws
(`none`). -/
def pctTokenize : List Char → Option (List PctTok)
  | [] => some []
  | c :: rest =>
    if c = Char.ofNat 37 then
      match rest with
      | h1 :: h2 :: rest2 =>
        match hexVal h1, hexVal h2 with
        | some a, some b =>
          match pctTokenize rest2 with
          | some ts => some (PctTok.byte (16 * a + b) :: ts)
          | none => none
        | _, _ => none
      | _ => none
    else
      match pctTokenize rest with
      | some ts => some (PctTok.lit c :: ts)
      | none => none

/-- Whether a byte is a UTF-8 continuation byte. -/
def contByte (b : Nat) : Bool := 128 ≤ b && b < 192

/-- One step of the UTF-8 decoding automaton over percent-tokens. The
state is `(need, acc, lo, out)`: number of continuation bytes still
expected, code point accumulated so far, minimum code point the current
sequence may legally produce (overlong rejection), and characters decoded
so far. Literal characters pass through only between sequences; escaped
bytes must form valid UTF-8 (no overlong forms, no surrogates, maximum
U+10FFFF). -/
def utf8Step : Nat × Nat × Nat × List Char → PctTok → Option (Nat × Nat × Nat × List Char)
  | (need, _, _, out), PctTok.lit c =>
    if need = 0 then some (0, 0, 0, out ++ [c]) else none
  | (need, acc, lo, out), PctTok.byte b =>
    if need = 0 then
      if b < 0x80 then some (0, 0, 0, out ++ [Char.ofNat b])
      else if b < 0xC2 then none
      else if b < 0xE0 then some (1, b - 0xC0, 0x80, out)
      else if b < 0xF0 then some (2, b - 0xE0, 0x800, out)
      else if b < 0xF5 then some (3, b - 0xF0, 0x10000, out)
      else none
    else
      if contByte b then
        if need = 1 then
          if acc * 64 + (b - 0x80) < lo ∨
              (0xD800 ≤ acc * 64 + (b - 0x80) ∧ acc * 64 + (b - 0x80) < 0xE000) ∨
              0x10FFFF < acc * 64 + (b - 0x80) then none
          else some (0, 0, 0, out ++ [Char.ofNat (acc * 64 + (b - 0x80))])
        else some (need - 1, acc * 64 + (b - 0x80), lo, out)
      else none

/-- Run of the UTF-8 automaton over a token list. -/
def utf8Run (st : Nat × Nat × Nat × List Char) (ts : List PctTok) :
    Option (Nat × Nat × Nat × List Char) :=
  ts.foldlM utf8Step st

/-- Second phase of `decodeURIComponent`: run the UTF-8 automaton from the
clean state; a malformed or truncated sequence throws (`none`). -/
def utf8DecodeToks (ts : List PctTok) : Option (List Char) :=
  match utf8Run (0, 0, 0, []) ts with
  | some (0, _, _, out) => some out
  | _ => none

/-- Model of the platform `decodeURIComponent` (the `decode` of
src/src/util/query.js line 20); `none` models a thrown `URIError`. -/
def decodeURIComponentM (s : List Char) : Option (List Char) :=
  match pctTokenize s with
  | some ts => utf8DecodeToks ts
  | none => none

/-- Whether a character is JS whitespace for `String.prototype.trim`. -/
def isJsSpace (c : Char) : Bool :=
  c.toNat = 32 || (9 ≤ c.toNat && c.toNat ≤ 13) || c.toNat = 160 || c.toNat = 0x1680 ||
  (0x2000 ≤ c.toNat && c.toNat ≤ 0x200A) || c.toNat = 0x2028 || c.toNat = 0x2029 ||
  c.toNat = 0x202F || c.toNat = 0x205F || c.toNat = 0x3000 || c.toNat = 0xFEFF

/-- Model of `query.trim()`. -/
def jsTrim (s : List Char) : List Char :=
  ((s.dropWhile isJsSpace).reverse.dropWhile isJsSpace).reverse

/-- Model of `.replace(/^(\?|#|&)/, '')`: strip one leading `?`, `#` or
`&`. -/
def stripLead : List Char → List Char
  | [] => []
  | c :: rest =>
    if c = Char.ofNat 63 ∨ c = Char.ofNat 35 ∨ c = Char.ofNat 38 then rest else c :: rest

/-- Model of `param.replace(/\+/g, ' ')`. -/
def plusToSpace (s : List Char) : List Char :=
  s.map (fun c => if c = Char.ofNat 43 then Char.ofNat 32 else c)

/-- Progressive storage of a parsed `key=value` pair
(src/src/util/query.js lines 67-73): an absent key stores the scalar, a
scalar escalates to a two-element array, an array pushes. -/
def storeParam (res : List (String × QVal)) (key : String) (val : Option String) :
    List (String × QVal) :=
  match dictGet res key with
  | none => res ++ [(key, val.elim QVal.null QVal.str)]
  | some (QVal.arr xs) => dictSet res key (QVal.arr (xs ++ [val.elim QSv.null QSv.str]))
  | some (QVal.str s) =>
    dictSet res key (QVal.arr [QSv.str s, val.elim QSv.null QSv.str])
  | some QVal.null => dictSet res key (QVal.arr [QSv.null, val.elim QSv.null QSv.str])
  | some QVal.undef => dictSet res key (val.elim QVal.null QVal.str)

/-- Processing of one `&`-separated parameter inside `parseQuery`'s
`forEach`: replace `+` by spaces, split on `=`, decode the first part as
the key, decode the rest (re-joined with `=`) as the value or take `null`
if there is no `=`; a decode failure throws (`none`). -/
def parseParam (res : List (String × QVal)) (param : List Char) :
    Option (List (String × QVal)) :=
  match (plusToSpace param).splitOn (Char.ofNat 61) with
  | [] => some res
  | keyE :: rest =>
    match decodeURIComponentM keyE with
    | none => none
    | some key =>
      match rest with
      | [] => some (storeParam res (String.mk key) none)
      | _ =>
        match decodeURIComponentM (List.intercalate [Char.ofNat 61] rest) with
        | none => none
        | some v => some (storeParam res (String.mk key) (some (String.mk v)))

/-- Model of `parseQuery` from src/src/util/query.js lines 48-77; `none`
models a thrown decoding error. -/
def parseQuery (s : List Char) : Option (List (String × QVal)) :=
  let s1 := stripLead (jsTrim s)
  if s1 = [] then some []
  else (s1.splitOn (Char.ofNat 38)).foldlM parseParam []

/-- Segment produced for one key of `stringifyQuery`
(src/src/util/query.js lines 85-111): `undefined` yields the empty
string, `null` a bare key, a scalar `key=value`, and an array one
bare-key/`key=value` part per non-undefined element joined by `&`. -/
def stringifySegment (k : String) (v : QVal) : List Char :=
  match v with
  | QVal.undef => []
  | QVal.null => encode k.toList
  | QVal.str s => encode k.toList ++ Char.ofNat 61 :: encode s.toList
  | QVal.arr xs =>
    List.intercalate [Char.ofNat 38] (xs.filterMap (fun v2 =>
      match v2 with
      | QSv.undef => none
      | QSv.null => some (encode k.toList)
      | QSv.str s => some (encode k.toList ++ Char.ofNat 61 :: encode s.toList)))

/-- Model of `stringifyQuery` from src/src/util/query.js lines 84-114:
map keys to segments, discard empty segments, join with `&` and prefix
`?` when non-empty. -/
def stringifyQuery (m : List (String × QVal)) : List Char :=
  let res := List.intercalate [Char.ofNat 38]
    ((m.map (fun kv => stringifySegment kv.1 kv.2)).filter (fun x => x.length ≠ 0))
  if res = [] then [] else Char.ofNat 63 :: res

/-! ### Definitions: Route model (src/src/util/route.js lines 16-119)

A `Route` is modelled by `RouteM`; JS object identity is represented by
the `rid` field (the allocator hands out distinct `rid`s, and `START` is
the unique route with `rid = 0`).  `Object.freeze(route)` at the end of
`createRoute` is recorded in the `frozen` field. -/

/-- Truthiness of an optional JS string: `undefined` and the empty string
are falsy. -/
def strTruthy : Option String → Bool
  | some s => s ≠ ""
  | none => false

/-- JS `a || d` for an optional string `a` and a string default `d`. -/
def jsOrS (o : Option String) (d : String) : String :=
  match o with
  | some s => if s = "" then d else s
  | none => d

/-- Route record as needed by `createRoute`/`formatMatch`: an identity,
an optional name, a meta dictionary, and the weak `parent` back
reference. -/
inductive RouteRecordT where
  | node (rid : Nat) (name : Option String) (meta : List (String × QVal))
      (parent : Option RouteRecordT)

def RouteRecordT.rid : RouteRecordT → Nat
  | .node r _ _ _ => r

def RouteRecordT.name : RouteRecordT → Option String
  | .node _ n _ _ => n

def RouteRecordT.meta : RouteRecordT → List (String × QVal)
  | .node _ _ m _ => m

def RouteRecordT.parent : RouteRecordT → Option RouteRecordT
  | .node _ _ _ p => p

/-- Model of `formatMatch` from src/src/util/route.js lines 72-79: walk
the `parent` links upward, unshifting each record, producing the
root-to-leaf chain of record identities. -/
def formatMatch : Option RouteRecordT → List Nat
  | none => []
  | some (RouteRecordT.node r _ _ p) => formatMatch p ++ [r]

/-- Model of an incoming `Location` object as consumed by `createRoute`:
all fields may be `undefined`. -/
structure JSLocation where
  name : Option String := none
  path : Option String := none
  hash : Option String := none
  query : Option (List (String × QVal)) := none
  params : Option (List (String × QVal)) := none

/-- Model of the `Route` object of src/src/util/route.js: the frozen
value produced by `createRoute`.  `rid` models JS object identity;
`matched` holds record identities root-to-leaf. -/
structure RouteM where
  rid : Nat
  name : Option String
  meta : List (String × QVal)
  path : String
  hash : String
  query : List (String × QVal)
  params : List (String × QVal)
  fullPath : String
  matched : List Nat
  redirectedFrom : Option String
  frozen : Bool
deriving DecidableEq, Repr

/-- Model of the deep `clone` of src/src/util/route.js lines 51-63 on a
query value. -/
def cloneVal : QVal → QVal
  | QVal.str s => QVal.str s
  | QVal.null => QVal.null
  | QVal.undef => QVal.undef
  | QVal.arr xs => QVal.arr (xs.map (fun e => e))

/-- Deep clone of a query dictionary (the object case of `clone`). -/
def cloneDict (d : List (String × QVal)) : List (String × QVal) :=
  d.map (fun kv => (kv.1, cloneVal kv.2))

/-- Model of `getFullPath` from src/src/util/route.js lines 81-87 with
the default `stringifyQuery` (no custom stringifier configured). -/
def getFullPath (loc : JSLocation) : String :=
  jsOrS loc.path "/" ++ String.mk (stringifyQuery (loc.query.getD [])) ++ loc.hash.getD ""

/-- Model of `createRoute` from src/src/util/route.js lines 16-48 with no
custom `stringifyQuery` configured on the router.  The fresh object
identity is passed in as `rid`; the returned route is frozen. -/
def createRoute (rid : Nat) (record : Option RouteRecordT) (location : JSLocation)
    (redirectedFrom : Option JSLocation) : RouteM :=
  { rid := rid
    name := if strTruthy location.name then location.name
            else record.bind RouteRecordT.name
    meta := (record.map RouteRecordT.meta).getD []
    path := jsOrS location.path "/"
    hash := jsOrS location.hash ""
    query := cloneDict (location.query.getD [])
    params := location.params.getD []
    fullPath := getFullPath location
    matched := record.elim [] (fun r => formatMatch (some r))
    redirectedFrom := redirectedFrom.map getFullPath
    frozen := true }

/-- Model of the `START` route of src/src/util/route.js lines 67-69: the
initial singleton, at the distinguished identity `rid = 0`. -/
def START : RouteM :=
  createRoute 0 none { path := some "/" } none

/-- Model of the JS `trailingSlashRE` replace: drop one trailing slash if
present. -/
def removeTrailSlashL (l : List Char) : List Char :=
  if l.getLast? = some (Char.ofNat 47) then l.dropLast else l

def removeTrailingSlash (s : String) : String :=
  String.mk (removeTrailSlashL s.toList)

/-- Object comparison of two query values, reached when both operands
have JS `typeof` "object" (`null` or an array): model of the recursive
branch of `isObjectEqual` including its `#1566` null guard. -/
def qvalObjEq : QVal → QVal → Bool
  | QVal.null, QVal.null => true
  | QVal.null, _ => false
  | _, QVal.null => false
  | QVal.arr xs, QVal.arr ys =>
    xs.length == ys.length &&
    (xs.zip ys).all (fun p =>
      if p.1 = QSv.null ∧ p.2 = QSv.null then true
      else p.1.jsStr == p.2.jsStr)
  | _, _ => false

/-- Whether a query value has JS `typeof` "object". -/
def isJsObjectQ : QVal → Bool
  | QVal.null => true
  | QVal.arr _ => true
  | _ => false

/-- Per-key value comparison of `isObjectEqual`: recurse when both sides
are objects, otherwise compare `String(...)` coercions. -/
def valEq (a b : QVal) : Bool :=
  if isJsObjectQ a && isJsObjectQ b then qvalObjEq a b
  else jsString a == jsString b

/-- Model of `isObjectEqual` from src/src/util/route.js lines 127-148 on
two dictionaries: equal key counts and per-key comparison of values (a
key absent from `b` reads as `undefined`). -/
def isObjectEqual (a b : List (String × QVal)) : Bool :=
  a.length == b.length &&
  a.all (fun kv => valEq kv.2 ((dictGet b kv.1).getD QVal.undef))

/-- Model of `isSameRoute` from src/src/util/route.js lines 95-119.  The
second argument may be JS `null`; the `b === START` identity test is the
`rid` comparison against `START.rid`. -/
def isSameRoute (a : RouteM) (b : Option RouteM) : Bool :=
  match b with
  | none => false
  | some b =>
    if b.rid = START.rid then a.rid == b.rid
    else if a.path ≠ "" ∧ b.path ≠ "" then
      removeTrailingSlash a.path == removeTrailingSlash b.path &&
      a.hash == b.hash &&
      isObjectEqual a.query b.query
    else if strTruthy a.name ∧ strTruthy b.name then
      a.name == b.name &&
      a.hash == b.hash &&
      isObjectEqual a.query b.query &&
      isObjectEqual a.params b.params
    else false

/-! ### Definitions: History engine (src/src/util/route.js lines 208-445)

The engine is single-threaded and continuation-passing.  Guards are
abstracted by a behaviour datatype (`GuardBehavior`): a guard either
calls its `next` continuation with some JS value, throws synchronously,
or stalls forever.  Every externally observable action (callbacks,
`ensureURL`, `push`/`replace`, hook invocations) is appended to an event
trace.  A concurrently started newer transition interacts with an older
one only through the shared `pending` field; this is modelled by an
`interfere` schedule that may overwrite `pending` before any iterator
step (each guard boundary is a suspension point). -/

/-- JS value passed by a guard to its `next` continuation. -/
inductive JsVal where
  | undef
  | vFalse
  | err (e : Nat)
  | str (s : String)
  | obj (path : Option String) (name : Option String) (replaceFlag : Bool)
  | other
deriving DecidableEq, Repr

/-- Model of `isError` from src/src/util/warn.js: only Error-like values
match. -/
def isError : JsVal → Bool
  | JsVal.err _ => true
  | _ => false

/-- JS truthiness of the values that can reach `abort`. -/
def jsTruthy : JsVal → Bool
  | JsVal.undef => false
  | JsVal.vFalse => false
  | JsVal.err _ => true
  | JsVal.str s => s ≠ ""
  | JsVal.obj _ _ _ => true
  | JsVal.other => true

/-- Redirect-shaped `next` argument: a string, or an object whose `path`
or `name` is a string (src/src/util/route.js lines 378-384). -/
def isRedirectTarget : JsVal → Bool
  | JsVal.str _ => true
  | JsVal.obj p n _ => p.isSome || n.isSome
  | _ => false

/-- Behaviour of one guard hook in the queue. -/
inductive GuardBehavior where
  | callNext (v : JsVal)
  | throwErr (e : Nat)
  | stall
deriving DecidableEq, Repr

/-- Observable engine events, in trace order.  Callback identities are
numeric ids. -/
inductive Ev where
  | ensureURL (push : Bool)
  | hookCalled (step : Nat)
  | errorCbCalled (cb : Nat) (e : Nat)
  | warnUncaught (e : Nat)
  | onAbortCalled (err : JsVal)
  | pushStarted (target : JsVal)
  | replaceStarted (target : JsVal)
  | listenCbCalled (rid : Nat)
  | afterHookCalled (hook : Nat) (toRid : Nat) (fromRid : Nat)
  | onCompleteCalled (rid : Nat)
  | readyCbCalled (cb : Nat) (arg : Option Nat)
  | readyErrorCbCalled (cb : Nat) (e : JsVal)
  | nextTickScheduled (rid : Nat)
deriving DecidableEq, Repr

/-- Mutable state of a `History` instance (src/src/util/route.js lines
208-236) together with the recorded event trace. -/
structure HState where
  current : RouteM
  pending : Option Nat
  ready : Bool
  readyCbs : List Nat
  readyErrorCbs : List Nat
  errorCbs : List Nat
  afterHooks : List Nat
  hasListenCb : Bool
  events : List Ev
deriving DecidableEq, Repr

/-- Model of `History.prototype.onReady` (src/src/util/route.js lines
242-251): when already ready, call `cb()` synchronously and discard
`errorCb`; otherwise queue `cb`, and `errorCb` when provided. -/
def onReady (st : HState) (cb : Nat) (errorCb : Option Nat) : HState :=
  if st.ready then
    { st with events := st.events ++ [Ev.readyCbCalled cb none] }
  else
    { st with
        readyCbs := st.readyCbs ++ [cb]
        readyErrorCbs := st.readyErrorCbs ++ (match errorCb with
          | some e => [e]
          | none => []) }

/-- Model of `History.prototype.onError` (src/src/util/route.js lines
253-255). -/
def onError (st : HState) (cb : Nat) : HState :=
  { st with errorCbs := st.errorCbs ++ [cb] }

/-- Model of `History.prototype.updateRoute` (src/src/util/route.js
lines 437-445): replace `current` by the new route, invoke the listen
callback, then the global after hooks with `(route, prev)`. -/
def updateRoute (st : HState) (route : RouteM) : HState :=
  let prev := st.current
  let st1 : HState := { st with current := route }
  let st2 : HState :=
    if st1.hasListenCb then
      { st1 with events := st1.events ++ [Ev.listenCbCalled route.rid] }
    else st1
  { st2 with events := st2.events ++
      st.afterHooks.map (fun h => Ev.afterHookCalled h route.rid prev.rid) }

/-- Model of the `onComplete` closure `transitionTo` passes to
`confirmTransition` (src/src/util/route.js lines 270-279): update the
route, call the caller's `onComplete`, re-sync the URL, and fire the
ready callbacks once. -/
def completeEffects (st : HState) (route : RouteM) (hasOnComplete : Bool) : HState :=
  let st1 := updateRoute st route
  let st2 : HState :=
    if hasOnComplete then
      { st1 with events := st1.events ++ [Ev.onCompleteCalled route.rid] }
    else st1
  let st3 : HState := { st2 with events := st2.events ++ [Ev.ensureURL false] }
  if st3.ready then st3
  else
    { st3 with
        ready := true
        events := st3.events ++ st3.readyCbs.map (fun cb => Ev.readyCbCalled cb (some route.rid)) }

/-- Model of the `onAbort` closure `transitionTo` passes to
`confirmTransition` (src/src/util/route.js lines 280-288): call the
caller's `onAbort`, and when the abort value is truthy and the engine is
not yet ready, set ready and fire the ready-error callbacks. -/
def abortCbEffects (st : HState) (hasOnAbort : Bool) (err : JsVal) : HState :=
  let st1 : HState :=
    if hasOnAbort then { st with events := st.events ++ [Ev.onAbortCalled err] }
    else st
  if jsTruthy err ∧ ¬st1.ready then
    { st1 with
        ready := true
        events := st1.events ++ st1.readyErrorCbs.map (fun cb => Ev.readyErrorCbCalled cb err) }
  else st1

/-- Model of the `abort` closure of `confirmTransition`
(src/src/util/route.js lines 304-314): an Error-like value is delivered
to every registered error callback (or a console warning if none), then
the transition's `onAbort` runs. -/
def abortEffects (st : HState) (hasOnAbort : Bool) (err : JsVal) : HState :=
  let st1 : HState :=
    match err with
    | JsVal.err e =>
      if st.errorCbs ≠ [] then
        { st with events := st.events ++ st.errorCbs.map (fun cb => Ev.errorCbCalled cb e) }
      else { st with events := st.events ++ [Ev.warnUncaught e] }
    | _ => st
  abortCbEffects st1 hasOnAbort err

/-- Result of one iterator step: continue with the next queue item, or
stop the queue (abort, redirect, stall). -/
inductive StepResult where
  | proceed (st : HState)
  | stop (st : HState)
deriving DecidableEq, Repr

/-- Model of the `iterator` of `confirmTransition`
(src/src/util/route.js lines 361-402): check `pending` identity, run the
hook, and dispatch on the value the hook passes to `next`: `false`/Error
aborts after forcing `ensureURL(true)`; a string or `path`/`name` object
aborts and starts a push/replace; anything else proceeds; a synchronous
throw aborts with the thrown error. -/
def iteratorStep (hasOnAbort : Bool) (routeRid : Nat) (st : HState) (g : GuardBehavior)
    (stepIdx : Nat) : StepResult :=
  if st.pending ≠ some routeRid then
    StepResult.stop (abortEffects st hasOnAbort JsVal.undef)
  else
    let st0 : HState := { st with events := st.events ++ [Ev.hookCalled stepIdx] }
    match g with
    | GuardBehavior.stall => StepResult.stop st0
    | GuardBehavior.throwErr e => StepResult.stop (abortEffects st0 hasOnAbort (JsVal.err e))
    | GuardBehavior.callNext v =>
      if v = JsVal.vFalse ∨ isError v then
        StepResult.stop (abortEffects
          { st0 with events := st0.events ++ [Ev.ensureURL true] } hasOnAbort v)
      else if isRedirectTarget v then
        let st1 := abortEffects st0 hasOnAbort JsVal.undef
        match v with
        | JsVal.obj p n r =>
          if r then StepResult.stop { st1 with events := st1.events ++ [Ev.replaceStarted v] }
          else StepResult.stop { st1 with events := st1.events ++ [Ev.pushStarted v] }
        | _ => StepResult.stop { st1 with events := st1.events ++ [Ev.pushStarted v] }
      else
        StepResult.proceed st0

/-- Interference point: before any iterator step a newer transition may
have overwritten `pending` (the only cross-transition communication). -/
def applyInterfere (interfere : Nat → Option (Option Nat)) (k : Nat) (st : HState) : HState :=
  match interfere k with
  | some p => { st with pending := p }
  | none => st

/-- One phase of `confirmTransition`: `runQueue(queue, iterator, cb)`
with null items skipped synchronously, real items run through the
iterator at successive suspension points `k`.  Returns the state, whether
the phase completed (its `cb` fired), and the next suspension index. -/
def runPhase (hasOnAbort : Bool) (routeRid : Nat) (interfere : Nat → Option (Option Nat)) :
    List (Option GuardBehavior) → HState → Nat → HState × Bool × Nat
  | [], st, k => (st, true, k)
  | none :: rest, st, k => runPhase hasOnAbort routeRid interfere rest st k
  | some g :: rest, st, k =>
    match iteratorStep hasOnAbort routeRid (applyInterfere interfere k st) g k with
    | StepResult.proceed st1 => runPhase hasOnAbort routeRid interfere rest st1 (k + 1)
    | StepResult.stop st1 => (st1, false, k + 1)

/-- Model of `History.prototype.confirmTransition` together with the
`onComplete`/`onAbort` closures of `transitionTo`
(src/src/util/route.js lines 264-430).  The candidate route (already
matched by the external matcher), the two guard queues (phase 1 built
from the chain diff, phase 2 the enter guards plus resolve hooks) and
the interference schedule are parameters. -/
def confirmTransition (st : HState) (route : RouteM)
    (queue1 queue2 : List (Option GuardBehavior))
    (interfere : Nat → Option (Option Nat))
    (hasOnComplete hasOnAbort : Bool) : HState :=
  if isSameRoute route (some st.current) ∧
      route.matched.length = st.current.matched.length then
    abortEffects { st with events := st.events ++ [Ev.ensureURL false] } hasOnAbort JsVal.undef
  else
    match runPhase hasOnAbort route.rid interfere queue1
        { st with pending := some route.rid } 0 with
    | (st2, false, _) => st2
    | (st2, true, k1) =>
      match runPhase hasOnAbort route.rid interfere queue2 st2 k1 with
      | (st3, false, _) => st3
      | (st3, true, k2) =>
        let st4 := applyInterfere interfere k2 st3
        if st4.pending ≠ some route.rid then
          abortEffects st4 hasOnAbort JsVal.undef
        else
          let st5 := completeEffects { st4 with pending := none } route hasOnComplete
          { st5 with events := st5.events ++ [Ev.nextTickScheduled route.rid] }

/-! ### Definitions: phase-1 queue construction (src/src/util/route.js
lines 335-351 and 514-572)

The Component Binding Provider (`flatMapComponents`, `flatten`,
`resolveAsyncComponents` from util/resolve-components.js) is external to
the given sources; its interface is modelled from the spec.  Guards are
abstract ids; `bind` models `bindGuard`, which may yield `undefined`
(no mounted instance). -/

/-- View definition: each in-component hook is absent (`none`) or a
guard or guard array (`some`, singleton list for a single guard). -/
structure ViewDef where
  beforeRouteLeave : Option (List Nat) := none
  beforeRouteUpdate : Option (List Nat) := none
  beforeRouteEnter : Option (List Nat) := none

/-- The fields of a RouteRecord used by the queue construction:
identity, named views in object-key order, and the per-record
`beforeEnter` guard. -/
structure GuardRecord where
  rid : Nat
  components : List (String × ViewDef)
  beforeEnter : Option Nat := none

/-- Modelled from the spec: the per-(record, view-key) cells produced by
`flatMapComponents(records, fn)` of the Component Binding Provider
("extract ordered guard functions for a set of matched records"):
records in matched order, view keys in object order; a cell is
`undefined` when the component has no such guard, else the bound
guard(s). -/
def guardCells (records : List GuardRecord) (hookOf : ViewDef → Option (List Nat))
    (bind : Nat → Nat → String → Option Nat) : List (Option (List (Option Nat))) :=
  records.flatMap (fun m => m.components.map (fun kv =>
    match hookOf kv.2 with
    | none => none
    | some gs => some (gs.map (fun g => bind g m.rid kv.1))))

/-- Modelled from the spec: `flatten` of the Component Binding Provider;
concatenate one nesting level, keeping `undefined` cells as single
entries. -/
def flattenCells : List (Option (List (Option Nat))) → List (Option Nat)
  | [] => []
  | none :: rest => none :: flattenCells rest
  | some gs :: rest => gs ++ flattenCells rest

/-- Model of `extractGuards` from src/src/util/route.js lines 514-539:
collect cells, optionally reverse the cell list, then flatten. -/
def extractGuards (records : List GuardRecord) (hookOf : ViewDef → Option (List Nat))
    (bind : Nat → Nat → String → Option Nat) (reverse : Bool) : List (Option Nat) :=
  flattenCells (if reverse then (guardCells records hookOf bind).reverse
                else guardCells records hookOf bind)

/-- Model of `extractLeaveGuards` (src/src/util/route.js lines 558-560):
leave guards with the cell order reversed. -/
def extractLeaveGuards (deactivated : List GuardRecord)
    (bind : Nat → Nat → String → Option Nat) : List (Option Nat) :=
  extractGuards deactivated (fun d => d.beforeRouteLeave) bind true

/-- Model of `extractUpdateHooks` (src/src/util/route.js lines 562-564):
update hooks in matched (root-to-leaf) order. -/
def extractUpdateHooks (updated : List GuardRecord)
    (bind : Nat → Nat → String → Option Nat) : List (Option Nat) :=
  extractGuards updated (fun d => d.beforeRouteUpdate) bind false

/-- Model of the phase-1 queue construction of `confirmTransition`
(src/src/util/route.js lines 335-351): the `[].concat` of leave guards,
global before hooks, update hooks, per-record `beforeEnter` guards, and
the single `resolveAsyncComponents(activated)` step (an always-present
function, modelled by the abstract id `resolveAsyncStep`). -/
def buildPhase1Queue (deactivated updated activated : List GuardRecord)
    (beforeHooks : List (Option Nat)) (bind : Nat → Nat → String → Option Nat)
    (resolveAsyncStep : Nat) : List (Option Nat) :=
  extractLeaveGuards deactivated bind ++
  beforeHooks ++
  extractUpdateHooks updated bind ++
  activated.map (fun m => m.beforeEnter) ++
  [some resolveAsyncStep]

/-- State carried by a step result. -/
def StepResult.state : StepResult → HState
  | StepResult.proceed st => st
  | StepResult.stop st => st

/-- Whether a guard behaviour makes the iterator proceed to the next
queue item: the hook calls `next` with a value that is neither `false`,
nor Error-like, nor redirect-shaped. -/
def proceedsB : GuardBehavior → Bool
  | GuardBehavior.callNext v => !(v == JsVal.vFalse || isError v || isRedirectTarget v)
  | _ => false

/-- Number of non-null items of a guard queue (the number of suspension
points the phase consumes). -/
def realCount (q : List (Option GuardBehavior)) : Nat :=
  (q.filterMap (fun o => o)).length

/-- Interference schedule of a newer transition to the route identity
`other` started at suspension point `j`: from that point on, `pending`
holds `other` at every check (the newer transition never hands `pending`
back). -/
def supersedeAt (j : Nat) (other : Nat) : Nat → Option (Option Nat) :=
  fun k => if j ≤ k then some (some other) else none

/-- Number of ready/ready-error callback invocations recorded in a
trace. -/
def readyFireEvents (evs : List Ev) : Nat :=
  evs.countP (fun e =>
    match e with
    | Ev.readyCbCalled _ _ => true
    | Ev.readyErrorCbCalled _ _ => true
    | _ => false)

/-- Whether an event is an invocation of a ready callback (used to state
that a no-op abort fires none). -/
def isReadyCbEv : Ev → Bool
  | Ev.readyCbCalled _ _ => true
  | Ev.readyErrorCbCalled _ _ => true
  | _ => false

/-- Number of commit-side events (route-change listener, after hooks,
`onComplete`) recorded in a trace; a transition that never commits adds
none. -/
def commitEvents (evs : List Ev) : Nat :=
  evs.countP (fun e =>
    match e with
    | Ev.onCompleteCalled _ => true
    | Ev.listenCbCalled _ => true
    | Ev.afterHookCalled _ _ _ => true
    | Ev.nextTickScheduled _ => true
    | _ => false)

/-- Ready-callback invariant between two engine states: once ready, an
engine stays ready and never invokes ready/ready-error callbacks again;
and a state that is still not ready has not invoked any. -/
def ReadyInv (a b : HState) : Prop :=
  (a.ready = true → b.ready = true ∧ readyFireEvents b.events = readyFireEvents a.events) ∧
  (b.ready = false → readyFireEvents b.events = readyFireEvents a.events)

/-- Final per-character encoding performed by `encode`: unreserved
characters other than `! ' ( ) *` stay literal, those five become
lowercase escapes, the comma stays literal (its uppercase escape is
undone), and everything else becomes uppercase UTF-8 escapes.  This is a
derived characterisation; `encode` itself is the three-stage replace
pipeline of the source. -/
def encChar (c : Char) : List Char :=
  if uriUnreserved c then
    if c.toNat = 33 ∨ c.toNat = 39 ∨ c.toNat = 40 ∨ c.toNat = 41 ∨ c.toNat = 42 then
      [Char.ofNat 37, hexDigitLower (c.toNat / 16), hexDigitLower (c.toNat % 16)]
    else [c]
  else if c.toNat = 44 then [Char.ofNat 44]
  else (utf8Bytes c.toNat).flatMap pctEncodeByte

/-- Token sequence produced by tokenizing the encoding of one character
(derived characterisation used in the round-trip proof). -/
def tokChunk (c : Char) : List PctTok :=
  if uriUnreserved c then
    if c.toNat = 33 ∨ c.toNat = 39 ∨ c.toNat = 40 ∨ c.toNat = 41 ∨ c.toNat = 42 then
      [PctTok.byte c.toNat]
    else [PctTok.lit c]
  else if c.toNat = 44 then [PctTok.lit (Char.ofNat 44)]
  else (utf8Bytes c.toNat).map PctTok.byte

/-- Parameter string contributed by one array element under key `k`
(the body of the `forEach` of `stringifyQuery`'s array case). -/
def elemPart (k : String) : QSv → Option (List Char)
  | QSv.undef => none
  | QSv.null => some (encode k.toList)
  | QSv.str s => some (encode k.toList ++ Char.ofNat 61 :: encode s.toList)

/-- The scalar parsed back from one array element's parameter string:
a bare key parses to `null`, `key=value` to the value string. -/
def qsvVal : QSv → Option String
  | QSv.str s => some s
  | QSv.null => none
  | QSv.undef => none

/-- The `&`-separated parameter strings contributed by one key of
`stringifyQuery` (derived decomposition of `stringifySegment`: the
segment is these parts joined by `&`). -/
def entryParts (k : String) (v : QVal) : List (List Char) :=
  match v with
  | QVal.undef => []
  | QVal.null => [encode k.toList]
  | QVal.str s => [encode k.toList ++ Char.ofNat 61 :: encode s.toList]
  | QVal.arr xs => xs.filterMap (elemPart k)

/-- Values that survive the query round trip (spec-side restriction of
the claimed domain): strings always; `null` only under a nonempty key
(an empty key with `null` yields an empty segment that is dropped);
arrays only with at least two non-`undefined` entries (a singleton array
collapses to a scalar on re-parse, `undefined` entries and empty arrays
are dropped). -/
def goodQVal (k : String) : QVal → Bool
  | QVal.str _ => true
  | QVal.null => k ≠ ""
  | QVal.undef => false
  | QVal.arr xs => 2 ≤ xs.length && xs.all (fun x => x ≠ QSv.undef)

/-- Characters that can appear in the output of `encode`: `%`, comma,
`-`-to-`9`, `_`, `~`, and ASCII letters. -/
def qChar (x : Char) : Prop :=
  x.toNat = 37 ∨ x.toNat = 44 ∨ (45 ≤ x.toNat ∧ x.toNat ≤ 57) ∨ x.toNat = 95 ∨
  x.toNat = 126 ∨ (65 ≤ x.toNat ∧ x.toNat ≤ 90) ∨ (97 ≤ x.toNat ∧ x.toNat ≤ 122)

-- ===== END DEFINITIONS =====

/-! ### Theorems about resolveQueue -/

theorem resolveLoop_ge {α : Type} [DecidableEq α] (current next : List α) :
    ∀ fuel i, i ≤ resolveLoop current next fuel i := by
  intro fuel
  induction fuel with
  | zero => intro i; simp [resolveLoop]
  | succ n ih =>
    intro i
    simp only [resolveLoop]
    split
    · exact Nat.le_refl i
    · exact Nat.le_trans (Nat.le_succ i) (ih (i + 1))

theorem resolveLoop_le {α : Type} [DecidableEq α] (current next : List α) :
    ∀ fuel i, resolveLoop current next fuel i ≤ i + fuel := by
  intro fuel
  induction fuel with
  | zero => intro i; simp [resolveLoop]
  | succ n ih =>
    intro i
    simp only [resolveLoop]
    split
    · exact Nat.le_add_right i (n + 1)
    · exact Nat.le_trans (ih (i + 1)) (by omega)

theorem resolveLoop_agree {α : Type} [DecidableEq α] (current next : List α) :
    ∀ fuel i j, i ≤ j → j < resolveLoop current next fuel i →
      current[j]? = next[j]? := by
  intro fuel
  induction fuel with
  | zero =>
    intro i j hij hj
    simp [resolveLoop] at hj
    omega
  | succ n ih =>
    intro i j hij hj
    simp only [resolveLoop] at hj
    by_cases h : current[i]? = next[i]?
    · rw [if_neg (by simpa using h)] at hj
      rcases Nat.eq_or_lt_of_le hij with rfl | hlt
      · exact h
      · exact ih (i + 1) j hlt hj
    · rw [if_pos (by simpa using h)] at hj
      omega

theorem resolveLoop_diff {α : Type} [DecidableEq α] (current next : List α) :
    ∀ fuel i, resolveLoop current next fuel i < i + fuel →
      current[resolveLoop current next fuel i]? ≠ next[resolveLoop current next fuel i]? := by
  intro fuel
  induction fuel with
  | zero => intro i h; simp [resolveLoop] at h
  | succ n ih =>
    intro i h
    simp only [resolveLoop] at h ⊢
    by_cases hd : current[i]? = next[i]?
    · rw [if_neg (by simpa using hd)] at h ⊢
      exact ih (i + 1) (by omega)
    · rw [if_pos (by simpa using hd)] at h ⊢
      exact hd

theorem firstDiffIdx_le {α : Type} [DecidableEq α] (current next : List α) :
    firstDiffIdx current next ≤ Nat.max current.length next.length := by
  have := resolveLoop_le current next (Nat.max current.length next.length) 0
  simpa [firstDiffIdx] using this

theorem firstDiffIdx_agree {α : Type} [DecidableEq α] (current next : List α) :
    ∀ j, j < firstDiffIdx current next → current[j]? = next[j]? := by
  intro j hj
  exact resolveLoop_agree current next _ 0 j (Nat.zero_le j) hj

theorem firstDiffIdx_diff {α : Type} [DecidableEq α] (current next : List α)
    (h : firstDiffIdx current next < Nat.max current.length next.length) :
    current[firstDiffIdx current next]? ≠ next[firstDiffIdx current next]? := by
  have := resolveLoop_diff current next (Nat.max current.length next.length) 0
  simp only [Nat.zero_add] at this
  exact this h

/-- The first-difference index never exceeds either chain length: at the
end of the shorter chain one side is `undefined` and the other a record,
so the scan stops there at the latest. -/
theorem firstDiffIdx_le_lengths {α : Type} [DecidableEq α] (current next : List α) :
    firstDiffIdx current next ≤ current.length ∧
    firstDiffIdx current next ≤ next.length := by
  have hle := firstDiffIdx_le current next
  constructor
  · by_contra hlt
    push_neg at hlt
    have hcn : current.length < next.length := by
      rcases Nat.lt_or_ge current.length next.length with h | h
      · exact h
      · exfalso
        have hmx : Nat.max current.length next.length = current.length := Nat.max_eq_left h
        omega
    have hagree := firstDiffIdx_agree current next current.length hlt
    have hc : current[current.length]? = none := by
      simp
    have hn : next[current.length]? ≠ none := by
      simp only [ne_eq, List.getElem?_eq_none_iff]
      omega
    rw [hc] at hagree
    exact hn hagree.symm
  · by_contra hlt
    push_neg at hlt
    have hcn : next.length < current.length := by
      rcases Nat.lt_or_ge next.length current.length with h | h
      · exact h
      · exfalso
        have hmx : Nat.max current.length next.length = next.length := Nat.max_eq_right h
        omega
    have hagree := firstDiffIdx_agree current next next.length hlt
    have hn : next[next.length]? = none := by
      simp
    have hc : current[next.length]? ≠ none := by
      simp only [ne_eq, List.getElem?_eq_none_iff]
      omega
    rw [hn] at hagree
    exact hc hagree

/-! ### Theorems about runQueue -/

theorem runQueue_nil {G : Type} (calls : G → Bool) :
    runQueue ([] : List (Option G)) calls = ([], 1) :=
  rfl

theorem runQueueSteps_shift {G : Type} (calls : G → Bool) :
    ∀ (q : List (Option G)) (i : Nat),
      runQueueSteps calls q (i + 1) =
        ((runQueueSteps calls q i).1.map (· + 1), (runQueueSteps calls q i).2) := by
  intro q
  induction q with
  | nil => intro i; simp [runQueueSteps]
  | cons o rest ih =>
    intro i
    cases o with
    | none => simpa [runQueueSteps] using ih (i + 1)
    | some g =>
      by_cases h : calls g
      · simp [runQueueSteps, h, ih (i + 1)]
      · simp [runQueueSteps, h]

theorem runQueue_cons_none {G : Type} (rest : List (Option G)) (calls : G → Bool) :
    runQueue (none :: rest) calls =
      ((runQueue rest calls).1.map (· + 1), (runQueue rest calls).2) := by
  simp [runQueue, runQueueSteps, runQueueSteps_shift]

theorem runQueue_cons_some {G : Type} (g : G) (rest : List (Option G)) (calls : G → Bool) :
    runQueue (some g :: rest) calls =
      if calls g then
        (0 :: (runQueue rest calls).1.map (· + 1), (runQueue rest calls).2)
      else ([0], 0) := by
  by_cases h : calls g <;>
    simp [runQueue, runQueueSteps, h, runQueueSteps_shift, List.cons]

theorem runQueue_mem {G : Type} (queue : List (Option G)) (calls : G → Bool) :
    ∀ k ∈ (runQueue queue calls).1, ∃ g, queue[k]? = some (some g) := by
  induction queue with
  | nil => intro k hk; simp [runQueue_nil] at hk
  | cons o rest ih =>
    cases o with
    | none =>
      intro k hk
      rw [runQueue_cons_none] at hk
      simp only [List.mem_map] at hk
      obtain ⟨k1, hk1, rfl⟩ := hk
      obtain ⟨g, hg⟩ := ih k1 hk1
      exact ⟨g, by simpa using hg⟩
    | some g0 =>
      intro k hk
      rw [runQueue_cons_some] at hk
      by_cases h : calls g0
      · rw [if_pos h] at hk
        rcases List.mem_cons.mp hk with rfl | hk
        · exact ⟨g0, by simp⟩
        · simp only [List.mem_map] at hk
          obtain ⟨k1, hk1, rfl⟩ := hk
          obtain ⟨g, hg⟩ := ih k1 hk1
          exact ⟨g, by simpa using hg⟩
      · rw [if_neg h] at hk
        rcases List.mem_singleton.mp hk with rfl
        exact ⟨g0, by simp⟩

theorem runQueue_pairwise {G : Type} (queue : List (Option G)) (calls : G → Bool) :
    (runQueue queue calls).1.Pairwise (· < ·) := by
  induction queue with
  | nil => simp [runQueue_nil]
  | cons o rest ih =>
    have hmap : ((runQueue rest calls).1.map (· + 1)).Pairwise (· < ·) := by
      rw [List.pairwise_map]
      exact ih.imp (by omega)
    cases o with
    | none => rw [runQueue_cons_none]; exact hmap
    | some g0 =>
      rw [runQueue_cons_some]
      by_cases h : calls g0
      · rw [if_pos h]
        refine List.pairwise_cons.mpr ⟨?_, hmap⟩
        intro b hb
        simp only [List.mem_map] at hb
        obtain ⟨k1, _, rfl⟩ := hb
        omega
      · rw [if_neg h]; simp

theorem runQueue_blocking {G : Type} (queue : List (Option G)) (calls : G → Bool) :
    ∀ k ∈ (runQueue queue calls).1, ∀ j g, j < k → queue[j]? = some (some g) →
      calls g = true ∧ j ∈ (runQueue queue calls).1 := by
  induction queue with
  | nil => intro k hk; simp [runQueue_nil] at hk
  | cons o rest ih =>
    cases o with
    | none =>
      intro k hk j g hj hq
      rw [runQueue_cons_none] at hk ⊢
      simp only [List.mem_map] at hk
      obtain ⟨k1, hk1, rfl⟩ := hk
      cases j with
      | zero => simp at hq
      | succ j1 =>
        simp only [List.getElem?_cons_succ] at hq
        obtain ⟨hc, hmem⟩ := ih k1 hk1 j1 g (by omega) hq
        exact ⟨hc, by simp only [List.mem_map]; exact ⟨j1, hmem, rfl⟩⟩
    | some g0 =>
      intro k hk j g hj hq
      rw [runQueue_cons_some] at hk ⊢
      by_cases h : calls g0
      · rw [if_pos h] at hk ⊢
        rcases List.mem_cons.mp hk with rfl | hk
        · omega
        · simp only [List.mem_map] at hk
          obtain ⟨k1, hk1, rfl⟩ := hk
          cases j with
          | zero =>
            simp only [List.getElem?_cons_zero, Option.some.injEq] at hq
            subst hq
            exact ⟨h, List.mem_cons_self _ _⟩
          | succ j1 =>
            simp only [List.getElem?_cons_succ] at hq
            obtain ⟨hc, hmem⟩ := ih k1 hk1 j1 g (by omega) hq
            refine ⟨hc, List.mem_cons.mpr (Or.inr ?_)⟩
            simp only [List.mem_map]
            exact ⟨j1, hmem, rfl⟩
      · rw [if_neg h] at hk ⊢
        rcases List.mem_singleton.mp hk with rfl
        omega

theorem runQueue_cb {G : Type} (queue : List (Option G)) (calls : G → Bool) :
    (runQueue queue calls).2 = if queue.all (fun o => o.elim true calls) then 1 else 0 := by
  induction queue with
  | nil => simp [runQueue_nil]
  | cons o rest ih =>
    cases o with
    | none => simpa [runQueue_cons_none] using ih
    | some g0 =>
      rw [runQueue_cons_some]
      by_cases h : calls g0
      · simpa [h] using ih
      · simp [h]

theorem runQueue_all_iff {G : Type} (queue : List (Option G)) (calls : G → Bool) :
    queue.all (fun o => o.elim true calls) = true ↔
      ∀ (j : Nat) (g : G), queue[j]? = some (some g) → calls g = true := by
  rw [List.all_eq_true]
  constructor
  · intro h j g hj
    obtain ⟨hlt, hget⟩ := List.getElem?_eq_some_iff.mp hj
    have hmem := List.getElem_mem hlt
    rw [hget] at hmem
    simpa using h _ hmem
  · intro h o ho
    cases o with
    | none => simp
    | some g =>
      obtain ⟨j, hj⟩ := List.get_of_mem ho
      have : queue[j.1]? = some (some g) := by
        rw [List.getElem?_eq_getElem j.2]
        simp [← hj, List.get_eq_getElem]
      simpa using h j.1 g this

/-! ### Claim C2 -/

/-- C2: for every pair of matched chains `current` and `next`,
`resolveQueue current next` returns `updated = next.take i`,
`activated = next.drop i`, `deactivated = current.drop i`, where `i` is
the first index at which `current` and `next` differ by identity,
scanning up to `max (length current) (length next)`; consequently
`|updated| + |activated| = |next|`, `|updated| + |deactivated| = |current|`,
and on two identical chains `activated` and `deactivated` are empty while
`updated` is the full chain. -/
theorem resolveQueue_diff_correct {α : Type} [DecidableEq α] (current next : List α) :
    (∀ j, j < firstDiffIdx current next → current[j]? = next[j]?) ∧
    (firstDiffIdx current next < Nat.max current.length next.length →
      current[firstDiffIdx current next]? ≠ next[firstDiffIdx current next]?) ∧
    firstDiffIdx current next ≤ Nat.max current.length next.length ∧
    resolveQueue current next =
      (next.take (firstDiffIdx current next),
       next.drop (firstDiffIdx current next),
       current.drop (firstDiffIdx current next)) ∧
    (resolveQueue current next).1.length + (resolveQueue current next).2.1.length
      = next.length ∧
    (resolveQueue current next).1.length + (resolveQueue current next).2.2.length
      = current.length ∧
    (current = next →
      (resolveQueue current next).2.1 = [] ∧
      (resolveQueue current next).2.2 = [] ∧
      (resolveQueue current next).1 = next) := by
  obtain ⟨hc, hn⟩ := firstDiffIdx_le_lengths current next
  refine ⟨firstDiffIdx_agree current next, firstDiffIdx_diff current next,
    firstDiffIdx_le current next, rfl, ?_, ?_, ?_⟩
  · simp only [resolveQueue, List.length_drop, List.length_take_of_le hn]
    omega
  · simp only [resolveQueue, List.length_drop, List.length_take_of_le hn]
    omega
  · intro heq
    subst heq
    have hidx : firstDiffIdx current current = current.length := by
      rcases Nat.lt_or_ge (firstDiffIdx current current) current.length with h | h
      · exfalso
        have hd := firstDiffIdx_diff current current (by
          have hmx : Nat.max current.length current.length = current.length :=
            Nat.max_self current.length
          omega)
        exact hd rfl
      · omega
    simp [resolveQueue, hidx]

/-- Witness for C2, discharging its embedded implications at the concrete
chains `[1, 2]` and `[1, 3]` and at the identical chains `[5, 6]`. -/
theorem resolveQueue_diff_correct_witness :
    resolveQueue [1, 2] [1, 3] = ([1], [3], [2]) ∧
    ([1, 2] : List Nat)[firstDiffIdx [1, 2] [1, 3]]? ≠ [1, 3][firstDiffIdx [1, 2] [1, 3]]? ∧
    (resolveQueue [5, 6] [5, 6]).2.1 = [] ∧
    (resolveQueue [5, 6] [5, 6]).2.2 = [] ∧
    (resolveQueue [5, 6] [5, 6]).1 = [5, 6] := by
  have h := resolveQueue_diff_correct [1, 2] [1, 3]
  have h2 := resolveQueue_diff_correct [5, 6] [5, 6]
  exact ⟨by decide, h.2.1 (by decide), h2.2.2.2.2.2.2 rfl⟩

/-! ### Claim C3 -/

/-- C3: `runQueue` executes queue items strictly in index order; an item
is started only after every earlier non-null item invoked its
continuation; null entries are skipped as already resolved; `cb` runs at
most once, exactly once precisely when every non-null item invokes its
continuation (immediately for an empty queue); and if some item never
invokes its continuation, `cb` never runs and no later item is started. -/
theorem runQueue_sequential_correct {G : Type} (queue : List (Option G)) (calls : G → Bool) :
    (runQueue queue calls).1.Pairwise (· < ·) ∧
    (∀ k ∈ (runQueue queue calls).1, ∃ g, queue[k]? = some (some g)) ∧
    (∀ k ∈ (runQueue queue calls).1, ∀ j g, j < k → queue[j]? = some (some g) →
      calls g = true ∧ j ∈ (runQueue queue calls).1) ∧
    ((runQueue queue calls).2 = 0 ∨ (runQueue queue calls).2 = 1) ∧
    ((runQueue queue calls).2 = 1 ↔
      ∀ (j : Nat) (g : G), queue[j]? = some (some g) → calls g = true) ∧
    (queue = [] → (runQueue queue calls).2 = 1) ∧
    (∀ (k : Nat) (g : G), queue[k]? = some (some g) → calls g = false →
      (runQueue queue calls).2 = 0 ∧ ∀ j, k < j → j ∉ (runQueue queue calls).1) := by
  have hcb := runQueue_cb queue calls
  have hall := runQueue_all_iff queue calls
  refine ⟨runQueue_pairwise queue calls, runQueue_mem queue calls,
    runQueue_blocking queue calls, ?_, ?_, ?_, ?_⟩
  · rw [hcb]; split <;> simp
  · rw [hcb]
    constructor
    · intro h
      by_cases hcond : queue.all (fun o => o.elim true calls) = true
      · exact hall.mp hcond
      · rw [if_neg hcond] at h; simp at h
    · intro h
      rw [if_pos (hall.mpr h)]
  · intro h; subst h; rfl
  · intro k g hk hg
    have hnotall : queue.all (fun o => o.elim true calls) ≠ true := by
      intro ht
      have := hall.mp ht k g hk
      rw [hg] at this
      exact Bool.noConfusion this
    constructor
    · rw [hcb, if_neg hnotall]
    · intro j hj hmem
      obtain ⟨hcalls, _⟩ := runQueue_blocking queue calls j hmem k g hj hk
      rw [hg] at hcalls
      exact Bool.noConfusion hcalls

/-- Witness for C3: the queue `[g1, g2, g3]` in which `g2` never calls
its continuation: `cb` never fires and `g3` (index 2) is never started. -/
theorem runQueue_sequential_correct_witness :
    (runQueue [some true, some false, some true] id).2 = 0 ∧
    2 ∉ (runQueue [some true, some false, some true] id).1 := by
  have h := runQueue_sequential_correct [some true, some false, some true] id
  obtain ⟨hcb, hblock⟩ := h.2.2.2.2.2.2 1 false (by decide) (by decide)
  exact ⟨hcb, hblock 2 (by decide)⟩

/-! ### Claim C8 -/

/-- C8 counterexample: the claim says that whenever either argument of
`isSameRoute` is `START` the result is true only if the other argument is
`START` itself.  But the source only identity-checks its second argument:
with `START` as the first argument and a freshly created distinct route
with path `/` (empty hash and query) as the second, value comparison
applies and returns `true`. -/
theorem isSameRoute_start_first_arg_cex :
    isSameRoute START (some (createRoute 1 none { path := some "/" } none)) = true ∧
    (createRoute 1 none { path := some "/" } none).rid ≠ START.rid := by
  exact ⟨by decide, by decide⟩

/-- C8 amended: `isSameRoute` treats `START` as same only by identity
when `START` is the second argument: `isSameRoute a (some START)` is true
exactly when `a` is `START` itself (the identity `rid` comparison), and a
JS-null second argument is never the same; with `START` as the first
argument ordinary value comparison applies, so a distinct route whose
path is also `/` is reported as "same". -/
theorem isSameRoute_start_identity (a : RouteM) :
    isSameRoute a (some START) = (a.rid == START.rid) ∧
    isSameRoute a none = false ∧
    isSameRoute START (some (createRoute 1 none { path := some "/" } none)) = true := by
  refine ⟨?_, rfl, by decide⟩
  simp [isSameRoute]

/-! ### Claim C5 -/

/-- C5 counterexample: the claim says a same-route no-op also fires the
ready callbacks with no error when the engine is not yet ready.  In the
source the abort value is `undefined`, the `onAbort` closure of
`transitionTo` checks `err && !this.ready`, and nothing fires: at a
concrete not-yet-ready state with a queued ready callback, a same-route
transition leaves `ready` false and invokes no ready callback at all. -/
theorem confirmTransition_noop_ready_cex :
    (confirmTransition
      { current := createRoute 1 none { path := some "/a" } none
        pending := none
        ready := false
        readyCbs := [10]
        readyErrorCbs := [11]
        errorCbs := []
        afterHooks := []
        hasListenCb := false
        events := [] }
      (createRoute 2 none { path := some "/a" } none) [] [] (fun _ => none) true true).ready
        = false ∧
    ((confirmTransition
      { current := createRoute 1 none { path := some "/a" } none
        pending := none
        ready := false
        readyCbs := [10]
        readyErrorCbs := [11]
        errorCbs := []
        afterHooks := []
        hasListenCb := false
        events := [] }
      (createRoute 2 none { path := some "/a" } none) [] [] (fun _ => none) true true).events.all
        (fun e => !isReadyCbEv e)) = true ∧
    isSameRoute (createRoute 2 none { path := some "/a" } none)
      (some (createRoute 1 none { path := some "/a" } none)) = true := by
  exact ⟨by decide, by decide, by decide⟩

/-- C5 amended: when the candidate route is "same" as the committed
current route and the matched-chain lengths agree, the transition is a
no-op: `ensureURL` re-syncs the external location, `onAbort` is invoked
with no error, `current`, `pending` and the ready state are untouched, no
guard hook runs, and no ready callback fires. -/
theorem confirmTransition_same_route_noop (st : HState) (route : RouteM)
    (q1 q2 : List (Option GuardBehavior)) (interfere : Nat → Option (Option Nat))
    (hoc hab : Bool)
    (hsame : isSameRoute route (some st.current) = true)
    (hlen : route.matched.length = st.current.matched.length) :
    confirmTransition st route q1 q2 interfere hoc hab =
      { st with events := st.events ++ [Ev.ensureURL false] ++
          (if hab then [Ev.onAbortCalled JsVal.undef] else []) } ∧
    (confirmTransition st route q1 q2 interfere hoc hab).current = st.current ∧
    (confirmTransition st route q1 q2 interfere hoc hab).ready = st.ready ∧
    (confirmTransition st route q1 q2 interfere hoc hab).pending = st.pending ∧
    readyFireEvents (confirmTransition st route q1 q2 interfere hoc hab).events =
      readyFireEvents st.events ∧
    (confirmTransition st route q1 q2 interfere hoc hab).events.countP
        (fun e => match e with | Ev.hookCalled _ => true | _ => false) =
      st.events.countP (fun e => match e with | Ev.hookCalled _ => true | _ => false) := by
  have heq : confirmTransition st route q1 q2 interfere hoc hab =
      { st with events := st.events ++ [Ev.ensureURL false] ++
          (if hab then [Ev.onAbortCalled JsVal.undef] else []) } := by
    unfold confirmTransition
    rw [if_pos ⟨by simpa using hsame, hlen⟩]
    unfold abortEffects abortCbEffects
    cases hab <;> simp [jsTruthy]
  refine ⟨heq, ?_, ?_, ?_, ?_, ?_⟩ <;> rw [heq] <;>
    cases hab <;>
      simp [readyFireEvents, isReadyCbEv, List.countP_append, List.countP_cons]

/-- Witness for C5 at a concrete not-yet-ready state and a same-route
candidate. -/
theorem confirmTransition_same_route_noop_witness :
    (confirmTransition
      { current := createRoute 1 none { path := some "/a" } none
        pending := none
        ready := false
        readyCbs := [10]
        readyErrorCbs := [11]
        errorCbs := []
        afterHooks := []
        hasListenCb := false
        events := [] }
      (createRoute 2 none { path := some "/a" } none) [] [] (fun _ => none) true false).current =
      createRoute 1 none { path := some "/a" } none := by
  exact (confirmTransition_same_route_noop
    { current := createRoute 1 none { path := some "/a" } none
      pending := none
      ready := false
      readyCbs := [10]
      readyErrorCbs := [11]
      errorCbs := []
      afterHooks := []
      hasListenCb := false
      events := [] }
    (createRoute 2 none { path := some "/a" } none) [] [] (fun _ => none) true false
    (by decide) (by decide)).2.1

/-! ### Claim C6 -/

/-- C6 counterexample: the claim says a guard that throws synchronously
is treated identically to calling `next(error)`.  In the source the
`next(error)` branch first forces `this.ensureURL(true)` and the `catch`
branch does not: at a concrete pending state the two traces differ, the
`next(error)` trace containing the forced resync and the throw trace
not. -/
theorem iterator_throw_not_identical_cex :
    Ev.ensureURL true ∈ (StepResult.state (iteratorStep true 3
      { current := createRoute 1 none { path := some "/a" } none
        pending := some 3
        ready := true
        readyCbs := []
        readyErrorCbs := []
        errorCbs := [20]
        afterHooks := []
        hasListenCb := false
        events := [] }
      (GuardBehavior.callNext (JsVal.err 5)) 0)).events ∧
    Ev.ensureURL true ∉ (StepResult.state (iteratorStep true 3
      { current := createRoute 1 none { path := some "/a" } none
        pending := some 3
        ready := true
        readyCbs := []
        readyErrorCbs := []
        errorCbs := [20]
        afterHooks := []
        hasListenCb := false
        events := [] }
      (GuardBehavior.throwErr 5) 0)).events := by
  exact ⟨by decide, by decide⟩

/-- C6 amended: dispatch of a guard's `next` argument during a live
transition (`pending` still holds the route).  `next(false)` aborts and
forces the external-location resync; `next(err)` with an Error-like
value additionally routes the error to the registered error callbacks
(console warning if none), then to `onAbort`, and fires the ready-error
callbacks when not yet ready; a string or an object carrying a `path` or
`name` aborts with no error and immediately starts a new transition
(replace-style when the object has a `replace` flag, else push-style);
any other value proceeds to the next guard; a synchronous throw aborts
with the thrown error exactly like `next(error)` except that it does
not force the external-location resync. -/
theorem iterator_next_dispatch (hab : Bool) (routeRid : Nat) (st : HState) (k : Nat)
    (hpend : st.pending = some routeRid) :
    (iteratorStep hab routeRid st (GuardBehavior.callNext JsVal.vFalse) k =
      StepResult.stop { st with events := st.events ++ [Ev.hookCalled k, Ev.ensureURL true] ++
        (if hab then [Ev.onAbortCalled JsVal.vFalse] else []) }) ∧
    (∀ e : Nat, iteratorStep hab routeRid st (GuardBehavior.callNext (JsVal.err e)) k =
      StepResult.stop { st with
        ready := true
        events := st.events ++ [Ev.hookCalled k, Ev.ensureURL true] ++
          (if st.errorCbs ≠ [] then st.errorCbs.map (fun cb => Ev.errorCbCalled cb e)
           else [Ev.warnUncaught e]) ++
          (if hab then [Ev.onAbortCalled (JsVal.err e)] else []) ++
          (if st.ready then []
           else st.readyErrorCbs.map (fun cb => Ev.readyErrorCbCalled cb (JsVal.err e))) }) ∧
    (∀ e : Nat, iteratorStep hab routeRid st (GuardBehavior.throwErr e) k =
      StepResult.stop { st with
        ready := true
        events := st.events ++ [Ev.hookCalled k] ++
          (if st.errorCbs ≠ [] then st.errorCbs.map (fun cb => Ev.errorCbCalled cb e)
           else [Ev.warnUncaught e]) ++
          (if hab then [Ev.onAbortCalled (JsVal.err e)] else []) ++
          (if st.ready then []
           else st.readyErrorCbs.map (fun cb => Ev.readyErrorCbCalled cb (JsVal.err e))) }) ∧
    (∀ s : String, iteratorStep hab routeRid st (GuardBehavior.callNext (JsVal.str s)) k =
      StepResult.stop { st with events := st.events ++ [Ev.hookCalled k] ++
        (if hab then [Ev.onAbortCalled JsVal.undef] else []) ++
        [Ev.pushStarted (JsVal.str s)] }) ∧
    (∀ (p n : Option String) (r : Bool), p.isSome ∨ n.isSome →
      iteratorStep hab routeRid st (GuardBehavior.callNext (JsVal.obj p n r)) k =
        StepResult.stop { st with events := st.events ++ [Ev.hookCalled k] ++
          (if hab then [Ev.onAbortCalled JsVal.undef] else []) ++
          [if r then Ev.replaceStarted (JsVal.obj p n r)
           else Ev.pushStarted (JsVal.obj p n r)] }) ∧
    (∀ v : JsVal, v = JsVal.undef ∨ v = JsVal.other ∨ (∃ r, v = JsVal.obj none none r) →
      iteratorStep hab routeRid st (GuardBehavior.callNext v) k =
        StepResult.proceed { st with events := st.events ++ [Ev.hookCalled k] }) := by
  refine ⟨?_, ?_, ?_, ?_, ?_, ?_⟩
  · simp [iteratorStep, hpend, abortEffects, abortCbEffects, isError, isRedirectTarget, jsTruthy]
    cases hab <;> simp
  · intro e
    simp [iteratorStep, hpend, abortEffects, abortCbEffects, isError, isRedirectTarget, jsTruthy]
    by_cases hr : st.ready <;> by_cases hc : st.errorCbs = [] <;>
      cases hab <;> simp [hr, hc]
  · intro e
    simp [iteratorStep, hpend, abortEffects, abortCbEffects, isError, isRedirectTarget, jsTruthy]
    by_cases hr : st.ready <;> by_cases hc : st.errorCbs = [] <;>
      cases hab <;> simp [hr, hc]
  · intro s
    simp [iteratorStep, hpend, abortEffects, abortCbEffects, isError, isRedirectTarget, jsTruthy]
    cases hab <;> simp
  · intro p n r htarget
    have hrt : isRedirectTarget (JsVal.obj p n r) = true := by
      rcases htarget with h | h <;> simp [isRedirectTarget, h]
    simp [iteratorStep, hpend, abortEffects, abortCbEffects, isError, hrt, jsTruthy]
    cases r <;> cases hab <;> simp
  · intro v hv
    rcases hv with rfl | rfl | ⟨r, rfl⟩ <;>
      simp [iteratorStep, hpend, abortEffects, abortCbEffects, isError, isRedirectTarget, jsTruthy]

/-- Witness for C6 at a concrete live state, exercising the redirect
branch of the dispatch. -/
theorem iterator_next_dispatch_witness :
    iteratorStep true 3
      { current := createRoute 1 none { path := some "/a" } none
        pending := some 3
        ready := true
        readyCbs := []
        readyErrorCbs := []
        errorCbs := []
        afterHooks := []
        hasListenCb := false
        events := [] }
      (GuardBehavior.callNext (JsVal.str "/login")) 0 =
    StepResult.stop { current := createRoute 1 none { path := some "/a" } none
                      pending := some 3
                      ready := true
                      readyCbs := []
                      readyErrorCbs := []
                      errorCbs := []
                      afterHooks := []
                      hasListenCb := false
                      events := [Ev.hookCalled 0, Ev.onAbortCalled JsVal.undef,
                                 Ev.pushStarted (JsVal.str "/login")] } := by
  have h := (iterator_next_dispatch true 3
    { current := createRoute 1 none { path := some "/a" } none
      pending := some 3
      ready := true
      readyCbs := []
      readyErrorCbs := []
      errorCbs := []
      afterHooks := []
      hasListenCb := false
      events := [] } 0 (by decide)).2.2.2.1 "/login"
  rw [h]
  decide

/-! ### Claim C1 -/

theorem abortEffects_undef (st : HState) (hab : Bool) :
    abortEffects st hab JsVal.undef =
      { st with events := st.events ++ (if hab then [Ev.onAbortCalled JsVal.undef] else []) } := by
  cases hab <;> simp [abortEffects, abortCbEffects, jsTruthy, isError]

theorem iteratorStep_stale (hab : Bool) (routeRid : Nat) (st : HState) (g : GuardBehavior)
    (k : Nat) (hpend : st.pending ≠ some routeRid) :
    iteratorStep hab routeRid st g k = StepResult.stop (abortEffects st hab JsVal.undef) := by
  rw [iteratorStep, if_pos hpend]

theorem iteratorStep_proceeds (hab : Bool) (routeRid : Nat) (st : HState) (g : GuardBehavior)
    (k : Nat) (hpend : st.pending = some routeRid) (hp : proceedsB g = true) :
    iteratorStep hab routeRid st g k =
      StepResult.proceed { st with events := st.events ++ [Ev.hookCalled k] } := by
  cases g with
  | stall => simp [proceedsB] at hp
  | throwErr e => simp [proceedsB] at hp
  | callNext v =>
    simp only [proceedsB, Bool.not_eq_eq_eq_not, Bool.not_true, Bool.or_eq_false_iff,
      beq_eq_false_iff_ne, ne_eq] at hp
    obtain ⟨⟨hv, he⟩, hr⟩ := hp
    simp [iteratorStep, hpend, hv, he, hr]

theorem applyInterfere_supersedeAt_lt (j other k : Nat) (st : HState) (h : k < j) :
    applyInterfere (supersedeAt j other) k st = st := by
  simp [applyInterfere, supersedeAt, Nat.not_le.mpr h]

theorem applyInterfere_supersedeAt_ge (j other k : Nat) (st : HState) (h : j ≤ k) :
    applyInterfere (supersedeAt j other) k st = { st with pending := some other } := by
  simp [applyInterfere, supersedeAt, h]

theorem runPhase_supersede (hab : Bool) (routeRid other j : Nat) (hne : other ≠ routeRid) :
    ∀ (q : List (Option GuardBehavior)) (st : HState) (k0 : Nat),
      st.pending = some routeRid →
      (∀ g, some g ∈ q → proceedsB g = true) →
      (k0 + realCount q ≤ j →
        runPhase hab routeRid (supersedeAt j other) q st k0 =
          ({ st with events := st.events ++ (List.range' k0 (realCount q)).map Ev.hookCalled },
           true, k0 + realCount q)) ∧
      (k0 ≤ j → j < k0 + realCount q →
        runPhase hab routeRid (supersedeAt j other) q st k0 =
          ({ st with
              pending := some other
              events := st.events ++ (List.range' k0 (j - k0)).map Ev.hookCalled ++
                (if hab then [Ev.onAbortCalled JsVal.undef] else []) },
           false, j + 1)) := by
  intro q
  induction q with
  | nil =>
    intro st k0 hpend hall
    constructor
    · intro hle
      simp [runPhase, realCount]
    · intro h1 h2
      simp [realCount] at h2
      omega
  | cons o rest ih =>
    intro st k0 hpend hall
    cases o with
    | none =>
      have hall2 : ∀ g, some g ∈ rest → proceedsB g = true := by
        intro g hg; exact hall g (List.mem_cons_of_mem _ hg)
      have hrc : realCount (none :: rest) = realCount rest := by
        simp [realCount]
      constructor
      · intro hle
        rw [realCount, show List.filterMap (fun o => o) (none :: rest) =
          List.filterMap (fun o => o) rest by simp]
        exact (ih st k0 hpend hall2).1 (by rw [hrc] at hle; exact hle)
      · intro h1 h2
        rw [hrc] at h2
        exact (ih st k0 hpend hall2).2 h1 h2
    | some g =>
      have hall2 : ∀ g2, some g2 ∈ rest → proceedsB g2 = true := by
        intro g2 hg; exact hall g2 (List.mem_cons_of_mem _ hg)
      have hpg : proceedsB g = true := hall g (List.mem_cons_self _ _)
      have hrc : realCount (some g :: rest) = realCount rest + 1 := by
        simp [realCount, Nat.add_comm]
      by_cases hk : j ≤ k0
      · -- superseded before this step: the first real item aborts
        have hstep : runPhase hab routeRid (supersedeAt j other) (some g :: rest) st k0 =
            ({ st with
                pending := some other
                events := st.events ++ (if hab then [Ev.onAbortCalled JsVal.undef] else []) },
             false, k0 + 1) := by
          rw [runPhase, applyInterfere_supersedeAt_ge j other k0 st hk]
          rw [iteratorStep_stale hab routeRid _ g k0 (by simp [hne])]
          rw [abortEffects_undef]
        constructor
        · intro hle
          rw [hrc] at hle
          omega
        · intro h1 h2
          have hj : j = k0 := Nat.le_antisymm hk h1
          subst hj
          rw [hstep]
          simp
      · -- not yet superseded: the guard proceeds
        have hklt : k0 < j := Nat.lt_of_not_le hk
        have hstep : runPhase hab routeRid (supersedeAt j other) (some g :: rest) st k0 =
            runPhase hab routeRid (supersedeAt j other) rest
              { st with events := st.events ++ [Ev.hookCalled k0] } (k0 + 1) := by
          rw [runPhase, applyInterfere_supersedeAt_lt j other k0 st hklt]
          rw [iteratorStep_proceeds hab routeRid st g k0 hpend hpg]
        have ihx := ih { st with events := st.events ++ [Ev.hookCalled k0] } (k0 + 1)
          (by simp [hpend]) hall2
        constructor
        · intro hle
          rw [hrc] at hle
          rw [hstep, ihx.1 (by omega)]
          have hr : List.range' k0 (realCount rest + 1) =
              k0 :: List.range' (k0 + 1) (realCount rest) := List.range'_succ k0 _ 1
          rw [hrc, hr]
          simp
          omega
        · intro h1 h2
          rw [hrc] at h2
          rw [hstep, ihx.2 (by omega) (by omega)]
          have hsub : j - k0 = (j - (k0 + 1)) + 1 := by omega
          have hr : List.range' k0 (j - k0) = k0 :: List.range' (k0 + 1) (j - (k0 + 1)) := by
            rw [hsub]
            exact List.range'_succ k0 _ 1
          rw [hr]
          simp

/-- C1 counterexample: the claim says a superseded (stale) transition
produces no observable effect at all, in particular that none of its
completion or abort callbacks fire.  In the source the stale check
`if (this.pending !== route) return abort()` calls `abort()`, which
invokes the transition's `onAbort` callback (with no error): in a
concrete run superseded before its first guard, the caller's `onAbort`
fires. -/
theorem superseded_abort_callback_cex :
    (confirmTransition
      { current := createRoute 1 none { path := some "/a" } none
        pending := none
        ready := true
        readyCbs := []
        readyErrorCbs := []
        errorCbs := []
        afterHooks := []
        hasListenCb := false
        events := [] }
      (createRoute 3 none { path := some "/b" } none)
      [some (GuardBehavior.callNext JsVal.other)] [] (supersedeAt 0 99) true true).events =
      [Ev.onAbortCalled JsVal.undef] ∧
    (confirmTransition
      { current := createRoute 1 none { path := some "/a" } none
        pending := none
        ready := true
        readyCbs := []
        readyErrorCbs := []
        errorCbs := []
        afterHooks := []
        hasListenCb := false
        events := [] }
      (createRoute 3 none { path := some "/b" } none)
      [some (GuardBehavior.callNext JsVal.other)] [] (supersedeAt 0 99) true true).current.rid
      = 1 := by
  exact ⟨by decide, by decide⟩

/-- C1 amended: a transition to route R superseded at suspension point
`j` (a newer transition to a different route identity holds `pending`
from then on) never commits: `current` is unchanged, no commit-side
events (listener, after hooks, `onComplete`) and no ready callbacks are
produced, and the run stops at the first stale check with a single
`abort()` — which does invoke the transition's `onAbort` callback, with
no error. -/
theorem confirmTransition_superseded (st : HState) (route : RouteM)
    (q1 q2 : List (Option GuardBehavior)) (other j : Nat) (hoc hab : Bool)
    (hnoop : ¬(isSameRoute route (some st.current) = true ∧
        route.matched.length = st.current.matched.length))
    (hp1 : ∀ g, some g ∈ q1 → proceedsB g = true)
    (hp2 : ∀ g, some g ∈ q2 → proceedsB g = true)
    (hne : other ≠ route.rid)
    (hj : j ≤ realCount q1 + realCount q2) :
    confirmTransition st route q1 q2 (supersedeAt j other) hoc hab =
      { st with
          pending := some other
          events := st.events ++ (List.range' 0 j).map Ev.hookCalled ++
            (if hab then [Ev.onAbortCalled JsVal.undef] else []) } ∧
    (confirmTransition st route q1 q2 (supersedeAt j other) hoc hab).current = st.current ∧
    (confirmTransition st route q1 q2 (supersedeAt j other) hoc hab).ready = st.ready ∧
    commitEvents (confirmTransition st route q1 q2 (supersedeAt j other) hoc hab).events =
      commitEvents st.events ∧
    readyFireEvents (confirmTransition st route q1 q2 (supersedeAt j other) hoc hab).events =
      readyFireEvents st.events := by
  have heq : confirmTransition st route q1 q2 (supersedeAt j other) hoc hab =
      { st with
          pending := some other
          events := st.events ++ (List.range' 0 j).map Ev.hookCalled ++
            (if hab then [Ev.onAbortCalled JsVal.undef] else []) } := by
    have hrseg : ∀ (m : Nat), m ≤ j → ∀ t : List Ev,
        (List.range' 0 m).map Ev.hookCalled ++
          ((List.range' m (j - m)).map Ev.hookCalled ++ t) =
        (List.range' 0 j).map Ev.hookCalled ++ t := by
      intro m hm t
      rw [← List.append_assoc, ← List.map_append]
      congr 2
      have h := List.range'_append 0 m (j - m) 1
      simp only [Nat.one_mul, Nat.mul_one, Nat.zero_add] at h
      rw [h]
      congr 1
      omega
    unfold confirmTransition
    rw [if_neg (by simpa using hnoop)]
    simp only []
    have h1 := runPhase_supersede hab route.rid other j hne q1
      { st with pending := some route.rid } 0 rfl hp1
    by_cases hc1 : j < realCount q1
    · rw [h1.2 (Nat.zero_le j) (by omega)]
      simp
    · push_neg at hc1
      rw [h1.1 (by omega)]
      simp only [Bool.not_true, Bool.false_eq_true, if_false]
      have h2 := runPhase_supersede hab route.rid other j hne q2
        { st with
            pending := some route.rid
            events := st.events ++ (List.range' 0 (realCount q1)).map Ev.hookCalled }
        (0 + realCount q1) rfl hp2
      by_cases hc2 : j < realCount q1 + realCount q2
      · rw [h2.2 (by omega) (by omega)]
        simp only [Bool.not_true, Bool.false_eq_true, if_false]
        have hr := hrseg (realCount q1) (by omega)
        simp only [Nat.zero_add] at hr ⊢
        simp [hr]
      · have hjeq : j = realCount q1 + realCount q2 := by omega
        rw [h2.1 (by omega)]
        simp only [Bool.not_true, Bool.false_eq_true, if_false]
        have hk : j ≤ 0 + realCount q1 + realCount q2 := by omega
        simp only [applyInterfere, supersedeAt, if_pos hk]
        rw [if_pos (by simp [hne])]
        rw [abortEffects_undef]
        have hr := hrseg (realCount q1) (by omega)
        have hq2 : j - realCount q1 = realCount q2 := by omega
        rw [hq2] at hr
        simp only [Nat.zero_add] at hr ⊢
        simp [hr]
  refine ⟨heq, ?_, ?_, ?_, ?_⟩ <;> rw [heq] <;>
    cases hab <;>
      simp [commitEvents, readyFireEvents, List.countP_append, List.countP_cons]

/-- Witness for C1 at a concrete two-guard transition superseded after
its first guard ran. -/
theorem confirmTransition_superseded_witness :
    (confirmTransition
      { current := createRoute 1 none { path := some "/a" } none
        pending := none
        ready := true
        readyCbs := []
        readyErrorCbs := []
        errorCbs := []
        afterHooks := []
        hasListenCb := false
        events := [] }
      (createRoute 3 none { path := some "/b" } none)
      [some (GuardBehavior.callNext JsVal.undef), some (GuardBehavior.callNext JsVal.other)]
      [] (supersedeAt 1 99) true true).current =
      createRoute 1 none { path := some "/a" } none := by
  exact (confirmTransition_superseded
    { current := createRoute 1 none { path := some "/a" } none
      pending := none
      ready := true
      readyCbs := []
      readyErrorCbs := []
      errorCbs := []
      afterHooks := []
      hasListenCb := false
      events := [] }
    (createRoute 3 none { path := some "/b" } none)
    [some (GuardBehavior.callNext JsVal.undef), some (GuardBehavior.callNext JsVal.other)]
    [] 99 1 true true
    (by decide)
    (by
      intro g hg
      simp only [List.mem_cons, List.mem_singleton] at hg
      rcases hg with h | h | h
      · cases h; decide
      · cases h; decide
      · simp at h)
    (by intro g hg; simp at hg)
    (by decide) (by decide)).2.1

/-! ### Claims C9 and C10: preservation lemmas -/

theorem readyInv_refl (a : HState) : ReadyInv a a :=
  ⟨fun h => ⟨h, rfl⟩, fun _ => rfl⟩

theorem readyInv_trans {a b c : HState} (h1 : ReadyInv a b) (h2 : ReadyInv b c) :
    ReadyInv a c := by
  constructor
  · intro ha
    obtain ⟨hb, he⟩ := h1.1 ha
    obtain ⟨hc, he2⟩ := h2.1 hb
    exact ⟨hc, by rw [he2, he]⟩
  · intro hc
    have he2 := h2.2 hc
    rcases Bool.eq_false_or_eq_true b.ready with hb | hb
    · obtain ⟨hcready, _⟩ := h2.1 hb
      rw [hcready] at hc
      exact Bool.noConfusion hc
    · rw [he2, h1.2 hb]

theorem readyInv_events_only (a : HState) (evs : List Ev)
    (hevs : evs.countP (fun e =>
      match e with
      | Ev.readyCbCalled _ _ => true
      | Ev.readyErrorCbCalled _ _ => true
      | _ => false) = 0) :
    ReadyInv a { a with events := a.events ++ evs } := by
  constructor
  · intro h
    refine ⟨h, ?_⟩
    simp [readyFireEvents, List.countP_append, hevs]
  · intro _
    simp [readyFireEvents, List.countP_append, hevs]

theorem abortEffects_readyInv (st : HState) (hab : Bool) (e : JsVal) :
    ReadyInv st (abortEffects st hab e) := by
  have hcb : ∀ (s : HState) (v : JsVal), ReadyInv s (abortCbEffects s hab v) := by
    intro s v
    unfold abortCbEffects
    constructor
    · intro h
      cases hab <;> simp [h, readyFireEvents, List.countP_append]
    · intro h
      by_cases ht : jsTruthy v = true
      · by_cases hr : s.ready = true
        · cases hab <;> simp [ht, hr, readyFireEvents, List.countP_append] at h ⊢
        · cases hab <;> simp [ht, hr] at h
      · cases hab <;> simp [ht, readyFireEvents, List.countP_append] at h ⊢
  unfold abortEffects
  cases e with
  | err x =>
    refine readyInv_trans ?_ (hcb _ _)
    by_cases hc : st.errorCbs = []
    · simp only [hc, ne_eq, not_true_eq_false, if_false]
      exact readyInv_events_only st _ (by simp)
    · simp only [ne_eq, hc, not_false_eq_true, if_true]
      refine readyInv_events_only st _ ?_
      rw [List.countP_map]
      simp [Function.comp]
  | undef => exact hcb _ _
  | vFalse => exact hcb _ _
  | str s => exact hcb _ _
  | obj p n r => exact hcb _ _
  | other => exact hcb _ _

theorem iteratorStep_readyInv (hab : Bool) (routeRid : Nat) (st : HState) (g : GuardBehavior)
    (k : Nat) : ReadyInv st (StepResult.state (iteratorStep hab routeRid st g k)) := by
  have hhook : ReadyInv st { st with events := st.events ++ [Ev.hookCalled k] } :=
    readyInv_events_only st _ (by simp)
  by_cases hp : st.pending ≠ some routeRid
  · rw [iteratorStep, if_pos hp]
    exact abortEffects_readyInv st hab JsVal.undef
  · cases g with
    | stall =>
      simp only [iteratorStep, if_neg hp]
      exact hhook
    | throwErr e =>
      simp only [iteratorStep, if_neg hp]
      exact readyInv_trans hhook (abortEffects_readyInv _ hab (JsVal.err e))
    | callNext v =>
      by_cases h1 : v = JsVal.vFalse ∨ isError v = true
      · simp only [iteratorStep, if_neg hp, if_pos h1]
        refine readyInv_trans hhook (readyInv_trans ?_ (abortEffects_readyInv _ hab v))
        exact readyInv_events_only _ _ (by simp)
      · by_cases h2 : isRedirectTarget v = true
        · cases v with
          | str s =>
            simp only [iteratorStep, if_neg hp, if_neg h1, if_pos h2]
            exact readyInv_trans
              (readyInv_trans hhook (abortEffects_readyInv _ hab JsVal.undef))
              (readyInv_events_only _ _ (by simp))
          | obj p n r =>
            cases r
            · simp only [iteratorStep, if_neg hp, if_neg h1, if_pos h2]
              rw [if_neg (by simp)]
              exact readyInv_trans
                (readyInv_trans hhook (abortEffects_readyInv _ hab JsVal.undef))
                (readyInv_events_only _ _ (by simp))
            · simp only [iteratorStep, if_neg hp, if_neg h1, if_pos h2]
              rw [if_pos trivial]
              exact readyInv_trans
                (readyInv_trans hhook (abortEffects_readyInv _ hab JsVal.undef))
                (readyInv_events_only _ _ (by simp))
          | undef => simp [isRedirectTarget] at h2
          | vFalse => simp [isRedirectTarget] at h2
          | err e => simp [isRedirectTarget] at h2
          | other => simp [isRedirectTarget] at h2
        · simp only [iteratorStep, if_neg hp, if_neg h1, if_neg h2]
          exact hhook

theorem runPhase_readyInv (hab : Bool) (routeRid : Nat)
    (interfere : Nat → Option (Option Nat)) :
    ∀ (q : List (Option GuardBehavior)) (st : HState) (k : Nat),
      ReadyInv st (runPhase hab routeRid interfere q st k).1 := by
  intro q
  induction q with
  | nil => intro st k; exact readyInv_refl st
  | cons o rest ih =>
    intro st k
    cases o with
    | none => exact ih st k
    | some g =>
      rw [runPhase]
      have hint : applyInterfere interfere k st =
          { st with pending := (applyInterfere interfere k st).pending } := by
        unfold applyInterfere
        cases interfere k <;> simp
      have hinv1 : ReadyInv st (applyInterfere interfere k st) := by
        rw [hint]
        exact ⟨fun h => ⟨h, rfl⟩, fun _ => rfl⟩
      rcases hres : iteratorStep hab routeRid (applyInterfere interfere k st) g k with st1 | st1
      · have := iteratorStep_readyInv hab routeRid (applyInterfere interfere k st) g k
        rw [hres] at this
        exact readyInv_trans (readyInv_trans hinv1 this) (ih st1 (k + 1))
      · have := iteratorStep_readyInv hab routeRid (applyInterfere interfere k st) g k
        rw [hres] at this
        exact readyInv_trans hinv1 this

theorem updateRoute_ready_events (st : HState) (route : RouteM) :
    (updateRoute st route).ready = st.ready ∧
    readyFireEvents (updateRoute st route).events = readyFireEvents st.events ∧
    (updateRoute st route).readyCbs = st.readyCbs := by
  unfold updateRoute
  by_cases h : st.hasListenCb <;>
    simp [h, readyFireEvents, List.countP_append, List.countP_map, Function.comp]

theorem completeEffects_readyInv (st : HState) (route : RouteM) (hoc : Bool) :
    ReadyInv st (completeEffects st route hoc) ∧ (completeEffects st route hoc).ready = true := by
  obtain ⟨hur1, hur2, _⟩ := updateRoute_ready_events st route
  have hur2c : (updateRoute st route).events.countP (fun e =>
      match e with
      | Ev.readyCbCalled _ _ => true
      | Ev.readyErrorCbCalled _ _ => true
      | _ => false) = st.events.countP (fun e =>
      match e with
      | Ev.readyCbCalled _ _ => true
      | Ev.readyErrorCbCalled _ _ => true
      | _ => false) := by
    simpa [readyFireEvents] using hur2
  unfold completeEffects
  by_cases h : st.ready = true
  · constructor
    · refine ⟨fun _ => ⟨?_, ?_⟩, fun hcon => ?_⟩
      · cases hoc <;> simp [hur1, h]
      · cases hoc <;>
          simp [hur1, h, readyFireEvents, List.countP_append, hur2c]
      · cases hoc <;> simp [hur1, h] at hcon
    · cases hoc <;> simp [hur1, h]
  · have hrf : st.ready = false := Bool.eq_false_iff.mpr h
    constructor
    · refine ⟨fun hcon => ?_, fun hcon => ?_⟩
      · rw [hcon] at hrf
        exact Bool.noConfusion hrf
      · cases hoc <;> simp [hur1, hrf] at hcon
    · cases hoc <;> simp [hur1, hrf]

theorem confirmTransition_readyInv (st : HState) (route : RouteM)
    (q1 q2 : List (Option GuardBehavior)) (interfere : Nat → Option (Option Nat))
    (hoc hab : Bool) :
    ReadyInv st (confirmTransition st route q1 q2 interfere hoc hab) := by
  unfold confirmTransition
  split
  · exact readyInv_trans (readyInv_events_only st _ (by simp))
      (abortEffects_readyInv _ hab JsVal.undef)
  · have hst1 : ReadyInv st { st with pending := some route.rid } :=
      ⟨fun h => ⟨h, rfl⟩, fun _ => rfl⟩
    have h1 := runPhase_readyInv hab route.rid interfere q1
      { st with pending := some route.rid } 0
    split
    · next st2 k heq =>
      rw [heq] at h1
      exact readyInv_trans hst1 h1
    · next st2 k1 heq =>
      rw [heq] at h1
      have hst2 : ReadyInv st st2 := readyInv_trans hst1 h1
      have h2 := runPhase_readyInv hab route.rid interfere q2 st2 k1
      split
      · next st3 k heq2 =>
        rw [heq2] at h2
        exact readyInv_trans hst2 h2
      · next st3 k2 heq2 =>
        rw [heq2] at h2
        have hst3 : ReadyInv st st3 := readyInv_trans hst2 h2
        have hint : ReadyInv st3 (applyInterfere interfere k2 st3) := by
          unfold applyInterfere
          cases interfere k2 <;> exact ⟨fun h => ⟨h, rfl⟩, fun _ => rfl⟩
        have hst4 : ReadyInv st (applyInterfere interfere k2 st3) :=
          readyInv_trans hst3 hint
        simp only []
        split
        · exact readyInv_trans hst4 (abortEffects_readyInv _ hab JsVal.undef)
        · have hpend : ReadyInv (applyInterfere interfere k2 st3)
              { applyInterfere interfere k2 st3 with pending := none } :=
            ⟨fun h => ⟨h, rfl⟩, fun _ => rfl⟩
          have hcomp := (completeEffects_readyInv
            { applyInterfere interfere k2 st3 with pending := none } route hoc).1
          refine readyInv_trans (readyInv_trans (readyInv_trans hst4 hpend) hcomp) ?_
          exact readyInv_events_only _ _ (by simp)

theorem abortEffects_current (st : HState) (hab : Bool) (e : JsVal) :
    (abortEffects st hab e).current = st.current := by
  unfold abortEffects abortCbEffects
  cases e <;> cases hab <;> simp only [] <;> split_ifs <;> simp_all [jsTruthy]

theorem iteratorStep_current (hab : Bool) (routeRid : Nat) (st : HState) (g : GuardBehavior)
    (k : Nat) : (StepResult.state (iteratorStep hab routeRid st g k)).current = st.current := by
  by_cases hp : st.pending ≠ some routeRid
  · rw [iteratorStep, if_pos hp]
    exact abortEffects_current st hab JsVal.undef
  · cases g with
    | stall => simp only [iteratorStep, if_neg hp]; rfl
    | throwErr e =>
      simp only [iteratorStep, if_neg hp]
      exact abortEffects_current _ hab (JsVal.err e)
    | callNext v =>
      by_cases h1 : v = JsVal.vFalse ∨ isError v = true
      · simp only [iteratorStep, if_neg hp, if_pos h1]
        exact abortEffects_current _ hab v
      · by_cases h2 : isRedirectTarget v = true
        · cases v with
          | str s =>
            simp only [iteratorStep, if_neg hp, if_neg h1, if_pos h2]
            exact abortEffects_current _ hab JsVal.undef
          | obj p n r =>
            cases r
            · simp only [iteratorStep, if_neg hp, if_neg h1, if_pos h2]
              rw [if_neg (by simp)]
              exact abortEffects_current _ hab JsVal.undef
            · simp only [iteratorStep, if_neg hp, if_neg h1, if_pos h2]
              rw [if_pos trivial]
              exact abortEffects_current _ hab JsVal.undef
          | undef => simp [isRedirectTarget] at h2
          | vFalse => simp [isRedirectTarget] at h2
          | err e => simp [isRedirectTarget] at h2
          | other => simp [isRedirectTarget] at h2
        · simp only [iteratorStep, if_neg hp, if_neg h1, if_neg h2]
          rfl

theorem runPhase_current (hab : Bool) (routeRid : Nat)
    (interfere : Nat → Option (Option Nat)) :
    ∀ (q : List (Option GuardBehavior)) (st : HState) (k : Nat),
      ((runPhase hab routeRid interfere q st k).1).current = st.current := by
  intro q
  induction q with
  | nil => intro st k; rfl
  | cons o rest ih =>
    intro st k
    cases o with
    | none => exact ih st k
    | some g =>
      rw [runPhase]
      have hint : (applyInterfere interfere k st).current = st.current := by
        unfold applyInterfere
        cases interfere k <;> simp
      have hit := iteratorStep_current hab routeRid (applyInterfere interfere k st) g k
      rcases hres : iteratorStep hab routeRid (applyInterfere interfere k st) g k with st1 | st1
      · rw [hres] at hit
        rw [ih st1 (k + 1)]
        rw [StepResult.state] at hit
        rw [hit, hint]
      · rw [hres] at hit
        rw [StepResult.state] at hit
        rw [hit, hint]

theorem updateRoute_current (st : HState) (route : RouteM) :
    (updateRoute st route).current = route := by
  unfold updateRoute
  simp only []
  split_ifs <;> simp

theorem completeEffects_current (st : HState) (route : RouteM) (hoc : Bool) :
    (completeEffects st route hoc).current = route := by
  unfold completeEffects
  have h := updateRoute_current st route
  simp only []
  split_ifs <;> cases hoc <;> simp_all

/-! ### Claim C9 -/

/-- C9: every Route produced by `createRoute` is frozen at construction
(`Object.freeze(route)` at the end of `createRoute`), including `START`;
and a successful navigation replaces `current` wholesale: `updateRoute`
installs exactly the newly constructed route, and any `confirmTransition`
run leaves `current` either the untouched previous route value or the new
candidate route value — never a modified variant of either.  Route values
are immutable values of the model; the engine never rebuilds or alters a
route after construction. -/
theorem createRoute_frozen_current_replaced :
    (∀ (rid : Nat) (rec : Option RouteRecordT) (loc : JSLocation)
        (rf : Option JSLocation), (createRoute rid rec loc rf).frozen = true) ∧
    START.frozen = true ∧
    (∀ (st : HState) (route : RouteM), (updateRoute st route).current = route) ∧
    (∀ (st : HState) (route : RouteM) (q1 q2 : List (Option GuardBehavior))
        (interfere : Nat → Option (Option Nat)) (hoc hab : Bool),
      (confirmTransition st route q1 q2 interfere hoc hab).current = st.current ∨
      (confirmTransition st route q1 q2 interfere hoc hab).current = route) := by
  refine ⟨fun rid rec loc rf => rfl, rfl, updateRoute_current, ?_⟩
  intro st route q1 q2 interfere hoc hab
  unfold confirmTransition
  split
  · left
    exact abortEffects_current _ hab JsVal.undef
  · have h1 := runPhase_current hab route.rid interfere q1
      { st with pending := some route.rid } 0
    split
    · next st2 k heq =>
      rw [heq] at h1
      left
      exact h1
    · next st2 k1 heq =>
      rw [heq] at h1
      have h2 := runPhase_current hab route.rid interfere q2 st2 k1
      split
      · next st3 k heq2 =>
        rw [heq2] at h2
        left
        rw [h2, h1]
      · next st3 k2 heq2 =>
        rw [heq2] at h2
        have hint : (applyInterfere interfere k2 st3).current = st3.current := by
          unfold applyInterfere
          cases interfere k2 <;> simp
        simp only []
        split
        · left
          rw [abortEffects_current, hint, h2, h1]
        · right
          have := completeEffects_current
            { applyInterfere interfere k2 st3 with pending := none } route hoc
          simpa using this

/-! ### Claim C10 -/

/-- C10: `onReady` called after the engine became ready invokes `cb`
synchronously exactly once and discards `errorCb` entirely; called
before the first resolution it queues `cb` in `readyCbs` and `errorCb`
(when provided) in `readyErrorCbs`.  Queued callbacks fire at most once
ever: once `ready` is true every transition keeps it true and invokes no
further ready or ready-error callback, and a transition that ends with
`ready` still false has invoked none. -/
theorem onReady_first_resolution (st : HState) (cb : Nat) (ecb : Option Nat) :
    (st.ready = true → onReady st cb ecb =
      { st with events := st.events ++ [Ev.readyCbCalled cb none] }) ∧
    (st.ready = false → onReady st cb ecb =
      { st with
          readyCbs := st.readyCbs ++ [cb]
          readyErrorCbs := st.readyErrorCbs ++ ecb.toList }) ∧
    (∀ (route : RouteM) (q1 q2 : List (Option GuardBehavior))
        (interfere : Nat → Option (Option Nat)) (hoc hab : Bool),
      st.ready = true →
        (confirmTransition st route q1 q2 interfere hoc hab).ready = true ∧
        readyFireEvents (confirmTransition st route q1 q2 interfere hoc hab).events =
          readyFireEvents st.events) ∧
    (∀ (route : RouteM) (q1 q2 : List (Option GuardBehavior))
        (interfere : Nat → Option (Option Nat)) (hoc hab : Bool),
      (confirmTransition st route q1 q2 interfere hoc hab).ready = false →
        readyFireEvents (confirmTransition st route q1 q2 interfere hoc hab).events =
          readyFireEvents st.events) := by
  refine ⟨?_, ?_, ?_, ?_⟩
  · intro h
    simp [onReady, h]
  · intro h
    cases ecb <;> simp [onReady, h, Option.toList]
  · intro route q1 q2 interfere hoc hab h
    exact (confirmTransition_readyInv st route q1 q2 interfere hoc hab).1 h
  · intro route q1 q2 interfere hoc hab h
    exact (confirmTransition_readyInv st route q1 q2 interfere hoc hab).2 h

/-- Witness for C10 at concrete states on both sides of the ready
flag. -/
theorem onReady_first_resolution_witness :
    onReady
      { current := START, pending := none, ready := true, readyCbs := [],
        readyErrorCbs := [], errorCbs := [], afterHooks := [],
        hasListenCb := false, events := [] } 5 (some 6) =
      { current := START, pending := none, ready := true, readyCbs := [],
        readyErrorCbs := [], errorCbs := [], afterHooks := [],
        hasListenCb := false, events := [Ev.readyCbCalled 5 none] } ∧
    onReady
      { current := START, pending := none, ready := false, readyCbs := [],
        readyErrorCbs := [], errorCbs := [], afterHooks := [],
        hasListenCb := false, events := [] } 5 (some 6) =
      { current := START, pending := none, ready := false, readyCbs := [5],
        readyErrorCbs := [6], errorCbs := [], afterHooks := [],
        hasListenCb := false, events := [] } := by
  constructor
  · have h := (onReady_first_resolution
      { current := START, pending := none, ready := true, readyCbs := [],
        readyErrorCbs := [], errorCbs := [], afterHooks := [],
        hasListenCb := false, events := [] } 5 (some 6)).1 rfl
    rw [h]
    decide
  · have h := (onReady_first_resolution
      { current := START, pending := none, ready := false, readyCbs := [],
        readyErrorCbs := [], errorCbs := [], afterHooks := [],
        hasListenCb := false, events := [] } 5 (some 6)).2.1 rfl
    rw [h]
    decide

/-! ### Claim C4 -/

theorem flatMap_reverse_singletons {β : Type} (l : List GuardRecord)
    (f : GuardRecord → List β) (h : ∀ m ∈ l, (f m).length = 1) :
    (l.flatMap f).reverse = l.reverse.flatMap f := by
  induction l with
  | nil => simp
  | cons m rest ih =>
    have hm : (f m).length = 1 := h m (List.mem_cons_self _ _)
    obtain ⟨a, ha⟩ := List.length_eq_one.mp hm
    have hrest : ∀ x ∈ rest, (f x).length = 1 := by
      intro x hx
      exact h x (List.mem_cons_of_mem _ hx)
    simp only [List.flatMap_cons, List.reverse_append, List.reverse_cons,
      List.flatMap_append, ih hrest, ha]
    simp

/-- C4: past the no-op check, the phase-1 guard queue is exactly, in
order: the component-bound leave guards of the deactivated records with
the per-component cells reversed — for the usual single-component
records this is the records in leaf-to-root order — then the global
before hooks in registration order, then the update guards of the
updated records in root-to-leaf (matched) order, then the per-record
`beforeEnter` guards of the activated records in root-to-leaf order,
then the single async step that resolves lazily loaded view definitions
of the activated records. -/
theorem confirmTransition_phase1_queue_order
    (deactivated updated activated : List GuardRecord)
    (beforeHooks : List (Option Nat)) (bind : Nat → Nat → String → Option Nat)
    (resolveAsyncStep : Nat) :
    buildPhase1Queue deactivated updated activated beforeHooks bind resolveAsyncStep =
      extractLeaveGuards deactivated bind ++ beforeHooks ++
      extractUpdateHooks updated bind ++ activated.map (fun m => m.beforeEnter) ++
      [some resolveAsyncStep] ∧
    ((∀ m ∈ deactivated, m.components.length = 1) →
      extractLeaveGuards deactivated bind =
        flattenCells (guardCells deactivated.reverse (fun d => d.beforeRouteLeave) bind)) ∧
    extractUpdateHooks updated bind =
      flattenCells (guardCells updated (fun d => d.beforeRouteUpdate) bind) ∧
    (buildPhase1Queue deactivated updated activated beforeHooks bind
        resolveAsyncStep).getLast? = some (some resolveAsyncStep) := by
  refine ⟨rfl, ?_, rfl, ?_⟩
  · intro hsingle
    unfold extractLeaveGuards extractGuards
    rw [if_pos rfl]
    congr 1
    unfold guardCells
    refine flatMap_reverse_singletons deactivated _ ?_
    intro m hm
    simp [hsingle m hm]
  · unfold buildPhase1Queue
    rw [List.getLast?_append]
    rfl

/-- Witness for C4 with two single-component deactivated records: the
leave-guard segment lists the leaf record's guard before the root
record's. -/
theorem confirmTransition_phase1_queue_order_witness :
    extractLeaveGuards
      [{ rid := 1, components := [("default", { beforeRouteLeave := some [11] })],
         beforeEnter := some 21 },
       { rid := 2, components := [("default", { beforeRouteLeave := some [12] })],
         beforeEnter := some 22 }]
      (fun g _ _ => some g) =
    flattenCells (guardCells
      [{ rid := 2, components := [("default", { beforeRouteLeave := some [12] })],
         beforeEnter := some 22 },
       { rid := 1, components := [("default", { beforeRouteLeave := some [11] })],
         beforeEnter := some 21 }]
      (fun d => d.beforeRouteLeave) (fun g _ _ => some g)) := by
  have h := (confirmTransition_phase1_queue_order
    [{ rid := 1, components := [("default", { beforeRouteLeave := some [11] })],
       beforeEnter := some 21 },
     { rid := 2, components := [("default", { beforeRouteLeave := some [12] })],
       beforeEnter := some 22 }]
    [] [] [] (fun g _ _ => some g) 99).2.1 (by
      intro m hm
      simp only [List.mem_cons, List.mem_singleton] at hm
      rcases hm with rfl | rfl | h
      · rfl
      · rfl
      · simp at h)
  simpa using h

/-! ### Claim C7: encode characterisation -/

theorem replacePct2C_cons_ne (c : Char) (rest : List Char) (h : c ≠ Char.ofNat 37) :
    replacePct2C (c :: rest) = c :: replacePct2C rest := by
  match rest with
  | [] => rfl
  | [d] => rfl
  | d :: e :: rest2 =>
    rw [replacePct2C]
    rw [if_neg (by intro hcon; exact h hcon.1)]

theorem charToNat_ofNat (n : Nat) (h : n.isValidChar) : (Char.ofNat n).toNat = n := by
  simp [Char.ofNat, Char.toNat, h, Char.ofNatAux, Nat.toUInt32, UInt32.ofNat, UInt32.toNat]

theorem replacePct2C_comma (rest : List Char) :
    replacePct2C (Char.ofNat 37 :: Char.ofNat 50 :: Char.ofNat 67 :: rest) =
      Char.ofNat 44 :: replacePct2C rest := by
  simp [replacePct2C]

theorem replacePct2C_triple (d1 d2 : Char) (rest : List Char)
    (h1 : d1 ≠ Char.ofNat 37) (h2 : d2 ≠ Char.ofNat 37)
    (hno : ¬(d1 = Char.ofNat 50 ∧ d2 = Char.ofNat 67)) :
    replacePct2C (Char.ofNat 37 :: d1 :: d2 :: rest) =
      Char.ofNat 37 :: d1 :: d2 :: replacePct2C rest := by
  rw [replacePct2C]
  rw [if_neg (by intro hcon; exact hno ⟨hcon.2.1, hcon.2.2⟩)]
  rw [replacePct2C_cons_ne d1 _ h1]
  rw [replacePct2C_cons_ne d2 rest h2]

theorem hexDigitUpper_ne_pct (n : Nat) (hn : n < 16) : hexDigitUpper n ≠ Char.ofNat 37 := by
  unfold hexDigitUpper
  split <;>
    · intro h
      have h2 := congrArg Char.toNat h
      rw [charToNat_ofNat _ (Or.inl (by omega)), charToNat_ofNat 37 (Or.inl (by omega))] at h2
      omega

theorem hexDigitLower_ne_pct (n : Nat) (hn : n < 16) : hexDigitLower n ≠ Char.ofNat 37 := by
  unfold hexDigitLower
  split <;>
    · intro h
      have h2 := congrArg Char.toNat h
      rw [charToNat_ofNat _ (Or.inl (by omega)), charToNat_ofNat 37 (Or.inl (by omega))] at h2
      omega

theorem char_valid_nat (c : Char) : c.toNat.isValidChar := by
  have h := c.valid
  simpa [UInt32.isValidChar, Char.toNat] using h

theorem char_toNat_lt (c : Char) : c.toNat < 0x110000 := by
  rcases char_valid_nat c with h | ⟨h1, h2⟩ <;> omega

theorem hexDigitUpper_toNat (n : Nat) (hn : n < 16) :
    (hexDigitUpper n).toNat = if n < 10 then 48 + n else 55 + n := by
  unfold hexDigitUpper
  split <;> rw [charToNat_ofNat _ (Or.inl (by omega))]

theorem hexDigitLower_toNat (n : Nat) (hn : n < 16) :
    (hexDigitLower n).toNat = if n < 10 then 48 + n else 87 + n := by
  unfold hexDigitLower
  split <;> rw [charToNat_ofNat _ (Or.inl (by omega))]

theorem utf8Bytes_facts (t : Nat) (ht : t < 0x110000) :
    ∀ b ∈ utf8Bytes t, b < 256 ∧ (t ≠ 44 → b ≠ 44) := by
  unfold utf8Bytes
  split_ifs with h1 h2 h3 <;> intro b hb <;>
    simp only [List.mem_cons, List.mem_singleton, List.not_mem_nil, or_false] at hb
  · subst hb
    exact ⟨by omega, fun h => h⟩
  · rcases hb with rfl | rfl <;> exact ⟨by omega, fun _ => by omega⟩
  · rcases hb with rfl | rfl | rfl <;> exact ⟨by omega, fun _ => by omega⟩
  · rcases hb with rfl | rfl | rfl | rfl <;> exact ⟨by omega, fun _ => by omega⟩

theorem encodeReserveReplace_keeps_pct_triple (b : Nat) (hb : b < 256) :
    encodeReserveReplace (pctEncodeByte b) = pctEncodeByte b := by
  have hhi := hexDigitUpper_toNat (b / 16) (by omega)
  have hlo := hexDigitUpper_toNat (b % 16) (by omega)
  have hpct : (Char.ofNat 37).toNat = 37 := charToNat_ofNat 37 (Or.inl (by omega))
  unfold encodeReserveReplace pctEncodeByte
  simp only [List.flatMap_cons, List.flatMap_nil, List.append_nil]
  rw [if_neg (by omega), if_neg (by split_ifs at hhi <;> omega),
    if_neg (by split_ifs at hlo <;> omega)]
  rfl

theorem encodeReserveReplace_append (a b : List Char) :
    encodeReserveReplace (a ++ b) = encodeReserveReplace a ++ encodeReserveReplace b := by
  unfold encodeReserveReplace
  exact List.flatMap_append a b _

theorem encodeReserveReplace_pct (bs : List Nat) (hb : ∀ b ∈ bs, b < 256) :
    encodeReserveReplace (bs.flatMap pctEncodeByte) = bs.flatMap pctEncodeByte := by
  induction bs with
  | nil => rfl
  | cons b rest ih =>
    rw [List.flatMap_cons, encodeReserveReplace_append,
      encodeReserveReplace_keeps_pct_triple b (hb b (List.mem_cons_self _ _)),
      ih (fun x hx => hb x (List.mem_cons_of_mem _ hx))]

theorem replacePct2C_pct_triples (bs : List Nat) (rest : List Char)
    (h : ∀ b ∈ bs, b < 256 ∧ b ≠ 44) :
    replacePct2C (bs.flatMap pctEncodeByte ++ rest) =
      bs.flatMap pctEncodeByte ++ replacePct2C rest := by
  induction bs with
  | nil => simp
  | cons b bs2 ih =>
    obtain ⟨hb, hb44⟩ := h b (List.mem_cons_self _ _)
    have hhi := hexDigitUpper_toNat (b / 16) (by omega)
    have hlo := hexDigitUpper_toNat (b % 16) (by omega)
    rw [List.flatMap_cons, List.append_assoc]
    show replacePct2C (Char.ofNat 37 :: hexDigitUpper (b / 16) :: hexDigitUpper (b % 16) ::
      (bs2.flatMap pctEncodeByte ++ rest)) = _
    rw [replacePct2C_triple _ _ _ (hexDigitUpper_ne_pct _ (by omega))
      (hexDigitUpper_ne_pct _ (by omega)) ?hno]
    case hno =>
      intro ⟨hd1, hd2⟩
      have h50 : (Char.ofNat 50).toNat = 50 := charToNat_ofNat 50 (Or.inl (by omega))
      have h67 : (Char.ofNat 67).toNat = 67 := charToNat_ofNat 67 (Or.inl (by omega))
      have e1 := congrArg Char.toNat hd1
      have e2 := congrArg Char.toNat hd2
      rw [hhi, h50] at e1
      rw [hlo, h67] at e2
      split_ifs at e1 e2 <;> omega
    rw [ih (fun x hx => h x (List.mem_cons_of_mem _ hx))]
    simp [pctEncodeByte]

theorem encode_char_step (c : Char) (rest : List Char) :
    replacePct2C (encodeReserveReplace
      (if uriUnreserved c then [c] else (utf8Bytes c.toNat).flatMap pctEncodeByte) ++ rest) =
      encChar c ++ replacePct2C rest := by
  by_cases hu : uriUnreserved c = true
  · rw [if_pos hu]
    by_cases hres : c.toNat = 33 ∨ c.toNat = 39 ∨ c.toNat = 40 ∨ c.toNat = 41 ∨ c.toNat = 42
    · have h1 : encodeReserveReplace [c] =
          [Char.ofNat 37, hexDigitLower (c.toNat / 16), hexDigitLower (c.toNat % 16)] := by
        simp [encodeReserveReplace, hres]
      rw [h1]
      have hlt : c.toNat / 16 < 16 := by omega
      have hlt2 : c.toNat % 16 < 16 := by omega
      have hhi := hexDigitLower_toNat (c.toNat / 16) hlt
      have hlo := hexDigitLower_toNat (c.toNat % 16) hlt2
      show replacePct2C (Char.ofNat 37 :: hexDigitLower (c.toNat / 16) ::
        hexDigitLower (c.toNat % 16) :: rest) = _
      rw [replacePct2C_triple _ _ _ (hexDigitLower_ne_pct _ hlt)
        (hexDigitLower_ne_pct _ hlt2) ?hno]
      case hno =>
        intro ⟨hd1, hd2⟩
        have h67 : (Char.ofNat 67).toNat = 67 := charToNat_ofNat 67 (Or.inl (by omega))
        have e2 := congrArg Char.toNat hd2
        rw [hlo, h67] at e2
        split_ifs at e2 <;> omega
      rw [encChar, if_pos hu, if_pos hres]
      rfl
    · have h1 : encodeReserveReplace [c] = [c] := by
        simp [encodeReserveReplace, hres]
      rw [h1]
      have hc37 : c ≠ Char.ofNat 37 := by
        intro he
        rw [he] at hu
        exact absurd hu (by decide)
      show replacePct2C (c :: rest) = _
      rw [replacePct2C_cons_ne c rest hc37]
      rw [encChar, if_pos hu, if_neg hres]
      rfl
  · rw [if_neg hu]
    by_cases hc : c.toNat = 44
    · have hb : utf8Bytes c.toNat = [44] := by
        rw [hc]
        decide
      have h2 : (utf8Bytes c.toNat).flatMap pctEncodeByte =
          [Char.ofNat 37, Char.ofNat 50, Char.ofNat 67] := by
        rw [hb]
        rfl
      rw [h2]
      have h3 : encodeReserveReplace [Char.ofNat 37, Char.ofNat 50, Char.ofNat 67] =
          [Char.ofNat 37, Char.ofNat 50, Char.ofNat 67] := by
        decide
      rw [h3]
      show replacePct2C (Char.ofNat 37 :: Char.ofNat 50 :: Char.ofNat 67 :: rest) = _
      rw [replacePct2C_comma]
      rw [encChar, if_neg hu, if_pos hc]
      rfl
    · have hfacts := utf8Bytes_facts c.toNat (char_toNat_lt c)
      rw [encodeReserveReplace_pct _ (fun b hb => (hfacts b hb).1)]
      rw [replacePct2C_pct_triples _ rest (fun b hb =>
        ⟨(hfacts b hb).1, (hfacts b hb).2 hc⟩)]
      rw [encChar, if_neg hu, if_neg hc]

theorem encode_eq_flatMap (s : List Char) : encode s = s.flatMap encChar := by
  induction s with
  | nil => rfl
  | cons c s ih =>
    have hstep : encode (c :: s) = encChar c ++ encode s := by
      unfold encode encodeURIComponentM
      rw [List.flatMap_cons, encodeReserveReplace_append]
      exact encode_char_step c _
    rw [hstep, ih, List.flatMap_cons]

theorem hexVal_hexDigitUpper (n : Nat) (hn : n < 16) : hexVal (hexDigitUpper n) = some n := by
  have h := hexDigitUpper_toNat n hn
  unfold hexVal
  by_cases h10 : n < 10
  · rw [if_pos h10] at h
    rw [if_pos (by omega)]
    rw [h]
    congr 1
    omega
  · rw [if_neg h10] at h
    rw [if_neg (by omega), if_pos (by omega)]
    rw [h]
    congr 1
    omega

theorem hexVal_hexDigitLower (n : Nat) (hn : n < 16) : hexVal (hexDigitLower n) = some n := by
  have h := hexDigitLower_toNat n hn
  unfold hexVal
  by_cases h10 : n < 10
  · rw [if_pos h10] at h
    rw [if_pos (by omega)]
    rw [h]
    congr 1
    omega
  · rw [if_neg h10] at h
    rw [if_neg (by omega), if_neg (by omega), if_pos (by omega)]
    rw [h]
    congr 1
    omega

theorem pctTokenize_lit (c : Char) (r : List Char) (hc : c ≠ Char.ofNat 37) :
    pctTokenize (c :: r) = (pctTokenize r).map (fun ts => PctTok.lit c :: ts) := by
  rw [pctTokenize.eq_def]
  simp only []
  rw [if_neg hc]
  cases pctTokenize r <;> rfl

theorem pctTokenize_pct (h1 h2 : Char) (a b : Nat) (r : List Char)
    (ha : hexVal h1 = some a) (hb : hexVal h2 = some b) :
    pctTokenize (Char.ofNat 37 :: h1 :: h2 :: r) =
      (pctTokenize r).map (fun ts => PctTok.byte (16 * a + b) :: ts) := by
  rw [pctTokenize.eq_def]
  simp only []
  rw [if_pos trivial, ha, hb]
  cases pctTokenize r <;> rfl

theorem pctTokenize_pctBytes (bs : List Nat) (r : List Char) (hb : ∀ b ∈ bs, b < 256) :
    pctTokenize (bs.flatMap pctEncodeByte ++ r) =
      (pctTokenize r).map (fun ts => bs.map PctTok.byte ++ ts) := by
  induction bs with
  | nil =>
    simp only [List.flatMap_nil, List.nil_append, List.map_nil]
    cases pctTokenize r <;> rfl
  | cons b rest ih =>
    have hblt : b < 256 := hb b (List.mem_cons_self _ _)
    rw [List.flatMap_cons, List.append_assoc]
    show pctTokenize (Char.ofNat 37 :: hexDigitUpper (b / 16) :: hexDigitUpper (b % 16) ::
      (rest.flatMap pctEncodeByte ++ r)) = _
    rw [pctTokenize_pct _ _ (b / 16) (b % 16) _
      (hexVal_hexDigitUpper _ (by omega)) (hexVal_hexDigitUpper _ (by omega))]
    rw [ih (fun x hx => hb x (List.mem_cons_of_mem _ hx))]
    have hbb : 16 * (b / 16) + b % 16 = b := by omega
    rw [hbb]
    cases pctTokenize r <;> rfl

theorem pctTokenize_tokChunk (c : Char) (r : List Char) :
    pctTokenize (encChar c ++ r) = (pctTokenize r).map (fun ts => tokChunk c ++ ts) := by
  by_cases hu : uriUnreserved c = true
  · by_cases hres : c.toNat = 33 ∨ c.toNat = 39 ∨ c.toNat = 40 ∨ c.toNat = 41 ∨ c.toNat = 42
    · rw [encChar, if_pos hu, if_pos hres, tokChunk, if_pos hu, if_pos hres]
      show pctTokenize (Char.ofNat 37 :: hexDigitLower (c.toNat / 16) ::
        hexDigitLower (c.toNat % 16) :: r) = _
      rw [pctTokenize_pct _ _ (c.toNat / 16) (c.toNat % 16) _
        (hexVal_hexDigitLower _ (by omega)) (hexVal_hexDigitLower _ (by omega))]
      have hbb : 16 * (c.toNat / 16) + c.toNat % 16 = c.toNat := by omega
      rw [hbb]
      rfl
    · rw [encChar, if_pos hu, if_neg hres, tokChunk, if_pos hu, if_neg hres]
      show pctTokenize (c :: r) = _
      exact pctTokenize_lit c r (by
        intro he
        rw [he] at hu
        exact absurd hu (by decide))
  · by_cases hc : c.toNat = 44
    · rw [encChar, if_neg hu, if_pos hc, tokChunk, if_neg hu, if_pos hc]
      show pctTokenize (Char.ofNat 44 :: r) = _
      exact pctTokenize_lit _ r (by decide)
    · rw [encChar, if_neg hu, if_neg hc, tokChunk, if_neg hu, if_neg hc]
      exact pctTokenize_pctBytes _ r
        (fun b hbmem => (utf8Bytes_facts c.toNat (char_toNat_lt c) b hbmem).1)

theorem contByte_true (b : Nat) (hlo : 128 ≤ b) (hhi : b < 192) : contByte b = true := by
  simp [contByte]
  omega

theorem utf8Run_append (st : Nat × Nat × Nat × List Char) (xs ys : List PctTok) :
    utf8Run st (xs ++ ys) = (utf8Run st xs).bind (fun st2 => utf8Run st2 ys) := by
  induction xs generalizing st with
  | nil => rfl
  | cons x r ih =>
    show (utf8Step st x).bind (fun st2 => utf8Run st2 (r ++ ys)) =
      ((utf8Step st x).bind (fun st2 => utf8Run st2 r)).bind (fun st2 => utf8Run st2 ys)
    cases utf8Step st x with
    | none => rfl
    | some st2 => exact ih st2

theorem utf8Step_lit (c : Char) (o : List Char) :
    utf8Step (0, 0, 0, o) (PctTok.lit c) = some (0, 0, 0, o ++ [c]) := by
  simp only [utf8Step]
  rw [if_pos trivial]

theorem utf8Step_ascii (b : Nat) (o : List Char) (h : b < 0x80) :
    utf8Step (0, 0, 0, o) (PctTok.byte b) = some (0, 0, 0, o ++ [Char.ofNat b]) := by
  simp only [utf8Step]
  rw [if_pos trivial, if_pos h]

theorem utf8Step_start2 (b : Nat) (o : List Char) (h1 : 0xC2 ≤ b) (h2 : b < 0xE0) :
    utf8Step (0, 0, 0, o) (PctTok.byte b) = some (1, b - 0xC0, 0x80, o) := by
  simp only [utf8Step]
  rw [if_pos trivial, if_neg (by omega), if_neg (by omega), if_pos h2]

theorem utf8Step_start3 (b : Nat) (o : List Char) (h1 : 0xE0 ≤ b) (h2 : b < 0xF0) :
    utf8Step (0, 0, 0, o) (PctTok.byte b) = some (2, b - 0xE0, 0x800, o) := by
  simp only [utf8Step]
  rw [if_pos trivial, if_neg (by omega), if_neg (by omega), if_neg (by omega), if_pos h2]

theorem utf8Step_start4 (b : Nat) (o : List Char) (h1 : 0xF0 ≤ b) (h2 : b < 0xF5) :
    utf8Step (0, 0, 0, o) (PctTok.byte b) = some (3, b - 0xF0, 0x10000, o) := by
  simp only [utf8Step]
  rw [if_pos trivial, if_neg (by omega), if_neg (by omega), if_neg (by omega), if_neg (by omega),
    if_pos h2]

theorem utf8Step_cont (n a l b : Nat) (o : List Char) (hn : 2 ≤ n)
    (h1 : 0x80 ≤ b) (h2 : b < 0xC0) :
    utf8Step (n, a, l, o) (PctTok.byte b) = some (n - 1, a * 64 + (b - 0x80), l, o) := by
  simp only [utf8Step]
  rw [if_neg (by omega), if_pos (by simp [contByte]; omega), if_neg (by omega)]

theorem utf8Step_fin (a l b : Nat) (o : List Char)
    (h1 : 0x80 ≤ b) (h2 : b < 0xC0)
    (hlo : l ≤ a * 64 + (b - 0x80))
    (hsur : ¬(0xD800 ≤ a * 64 + (b - 0x80) ∧ a * 64 + (b - 0x80) < 0xE000))
    (hmax : a * 64 + (b - 0x80) ≤ 0x10FFFF) :
    utf8Step (1, a, l, o) (PctTok.byte b) =
      some (0, 0, 0, o ++ [Char.ofNat (a * 64 + (b - 0x80))]) := by
  simp only [utf8Step]
  rw [if_neg (by omega), if_pos (by simp [contByte]; omega), if_pos trivial,
    if_neg (by push_neg; exact ⟨by omega, fun hx => by omega, by omega⟩)]

theorem utf8Run_bytes (t : Nat) (hv : t.isValidChar) (o : List Char) :
    utf8Run (0, 0, 0, o) ((utf8Bytes t).map PctTok.byte) = some (0, 0, 0, o ++ [Char.ofNat t]) := by
  have hlt : t < 0x110000 := by rcases hv with h | ⟨h1, h2⟩ <;> omega
  unfold utf8Bytes
  split_ifs with h1 h2 h3
  · simp only [List.map_cons, List.map_nil]
    show (utf8Step (0, 0, 0, o) (PctTok.byte t)).bind (fun st2 => utf8Run st2 []) = _
    rw [utf8Step_ascii t o h1]
    rfl
  · simp only [List.map_cons, List.map_nil]
    show (utf8Step (0, 0, 0, o) (PctTok.byte (0xC0 + t / 0x40))).bind _ = _
    rw [utf8Step_start2 _ o (by omega) (by omega)]
    show (utf8Step (1, 0xC0 + t / 0x40 - 0xC0, 0x80, o) (PctTok.byte (0x80 + t % 0x40))).bind
      (fun st2 => utf8Run st2 []) = _
    rw [utf8Step_fin _ _ _ o (by omega) (by omega) (by omega) (by omega) (by omega)]
    show some (0, 0, 0,
      o ++ [Char.ofNat ((0xC0 + t / 0x40 - 0xC0) * 64 + (0x80 + t % 0x40 - 0x80))]) = _
    have he : (0xC0 + t / 0x40 - 0xC0) * 64 + (0x80 + t % 0x40 - 0x80) = t := by omega
    rw [he]
  · simp only [List.map_cons, List.map_nil]
    show (utf8Step (0, 0, 0, o) (PctTok.byte (0xE0 + t / 0x1000))).bind _ = _
    rw [utf8Step_start3 _ o (by omega) (by omega)]
    show (utf8Step (2, 0xE0 + t / 0x1000 - 0xE0, 0x800, o)
        (PctTok.byte (0x80 + t / 0x40 % 0x40))).bind
      (fun st2 => (utf8Step st2 (PctTok.byte (0x80 + t % 0x40))).bind
        (fun st3 => utf8Run st3 [])) = _
    rw [utf8Step_cont _ _ _ _ o (by omega) (by omega) (by omega)]
    show (utf8Step (1, (0xE0 + t / 0x1000 - 0xE0) * 64 + (0x80 + t / 0x40 % 0x40 - 0x80), 0x800, o)
        (PctTok.byte (0x80 + t % 0x40))).bind (fun st3 => utf8Run st3 []) = _
    have hsur : ¬(0xD800 ≤ t ∧ t < 0xE000) := by
      rcases hv with h | ⟨ha, hb⟩
      · omega
      · omega
    rw [utf8Step_fin _ _ _ o (by omega) (by omega) (by omega) (by
        intro hx
        exact hsur ⟨by omega, by omega⟩) (by omega)]
    show some (0, 0, 0, o ++ [Char.ofNat (((0xE0 + t / 0x1000 - 0xE0) * 64 +
      (0x80 + t / 0x40 % 0x40 - 0x80)) * 64 + (0x80 + t % 0x40 - 0x80))]) = _
    have he : ((0xE0 + t / 0x1000 - 0xE0) * 64 + (0x80 + t / 0x40 % 0x40 - 0x80)) * 64 +
        (0x80 + t % 0x40 - 0x80) = t := by omega
    rw [he]
  · simp only [List.map_cons, List.map_nil]
    show (utf8Step (0, 0, 0, o) (PctTok.byte (0xF0 + t / 0x40000))).bind _ = _
    rw [utf8Step_start4 _ o (by omega) (by omega)]
    show (utf8Step (3, 0xF0 + t / 0x40000 - 0xF0, 0x10000, o)
        (PctTok.byte (0x80 + t / 0x1000 % 0x40))).bind
      (fun st2 => (utf8Step st2 (PctTok.byte (0x80 + t / 0x40 % 0x40))).bind
        (fun st3 => (utf8Step st3 (PctTok.byte (0x80 + t % 0x40))).bind
          (fun st4 => utf8Run st4 []))) = _
    rw [utf8Step_cont _ _ _ _ o (by omega) (by omega) (by omega)]
    show (utf8Step (2, (0xF0 + t / 0x40000 - 0xF0) * 64 + (0x80 + t / 0x1000 % 0x40 - 0x80),
        0x10000, o) (PctTok.byte (0x80 + t / 0x40 % 0x40))).bind
      (fun st3 => (utf8Step st3 (PctTok.byte (0x80 + t % 0x40))).bind
        (fun st4 => utf8Run st4 [])) = _
    rw [utf8Step_cont _ _ _ _ o (by omega) (by omega) (by omega)]
    show (utf8Step (1, ((0xF0 + t / 0x40000 - 0xF0) * 64 + (0x80 + t / 0x1000 % 0x40 - 0x80)) * 64 +
        (0x80 + t / 0x40 % 0x40 - 0x80), 0x10000, o) (PctTok.byte (0x80 + t % 0x40))).bind
      (fun st4 => utf8Run st4 []) = _
    rw [utf8Step_fin _ _ _ o (by omega) (by omega) (by omega) (by
        intro hx
        omega) (by omega)]
    show some (0, 0, 0, o ++ [Char.ofNat ((((0xF0 + t / 0x40000 - 0xF0) * 64 +
      (0x80 + t / 0x1000 % 0x40 - 0x80)) * 64 + (0x80 + t / 0x40 % 0x40 - 0x80)) * 64 +
      (0x80 + t % 0x40 - 0x80))]) = _
    have he : (((0xF0 + t / 0x40000 - 0xF0) * 64 + (0x80 + t / 0x1000 % 0x40 - 0x80)) * 64 +
        (0x80 + t / 0x40 % 0x40 - 0x80)) * 64 + (0x80 + t % 0x40 - 0x80) = t := by omega
    rw [he]

theorem utf8Run_tokChunk (c : Char) (o : List Char) :
    utf8Run (0, 0, 0, o) (tokChunk c) = some (0, 0, 0, o ++ [c]) := by
  rw [tokChunk]
  by_cases hu : uriUnreserved c = true
  · rw [if_pos hu]
    by_cases hres : c.toNat = 33 ∨ c.toNat = 39 ∨ c.toNat = 40 ∨ c.toNat = 41 ∨ c.toNat = 42
    · rw [if_pos hres]
      show (utf8Step (0, 0, 0, o) (PctTok.byte c.toNat)).bind (fun st2 => utf8Run st2 []) = _
      rw [utf8Step_ascii c.toNat o (by rcases hres with h | h | h | h | h <;> omega)]
      rw [Char.ofNat_toNat]
      rfl
    · rw [if_neg hres]
      show (utf8Step (0, 0, 0, o) (PctTok.lit c)).bind (fun st2 => utf8Run st2 []) = _
      rw [utf8Step_lit]
      rfl
  · rw [if_neg hu]
    by_cases hc : c.toNat = 44
    · rw [if_pos hc]
      show (utf8Step (0, 0, 0, o) (PctTok.lit (Char.ofNat 44))).bind
        (fun st2 => utf8Run st2 []) = _
      rw [utf8Step_lit]
      have : Char.ofNat 44 = c := by
        rw [← hc, Char.ofNat_toNat]
      rw [this]
      rfl
    · rw [if_neg hc]
      rw [utf8Run_bytes c.toNat (char_valid_nat c) o, Char.ofNat_toNat]

theorem utf8Run_chunks (s o : List Char) :
    utf8Run (0, 0, 0, o) (s.flatMap tokChunk) = some (0, 0, 0, o ++ s) := by
  induction s generalizing o with
  | nil => simp [utf8Run]
  | cons c r ih =>
    rw [List.flatMap_cons, utf8Run_append, utf8Run_tokChunk]
    show utf8Run (0, 0, 0, o ++ [c]) (r.flatMap tokChunk) = _
    rw [ih (o ++ [c]), List.append_assoc]
    rfl

theorem decode_encode (s : List Char) : decodeURIComponentM (encode s) = some s := by
  rw [decodeURIComponentM, encode_eq_flatMap]
  have ht : pctTokenize (s.flatMap encChar) = some (s.flatMap tokChunk) := by
    induction s with
    | nil => rfl
    | cons c r ih =>
      rw [List.flatMap_cons, pctTokenize_tokChunk, ih, List.flatMap_cons]
      rfl
  rw [ht]
  show utf8DecodeToks (s.flatMap tokChunk) = some s
  rw [utf8DecodeToks, utf8Run_chunks s []]
  rw [List.nil_append]

theorem encChar_qChar (c : Char) : ∀ x ∈ encChar c, qChar x := by
  intro x hx
  rw [encChar] at hx
  by_cases hu : uriUnreserved c = true
  · rw [if_pos hu] at hx
    by_cases hres : c.toNat = 33 ∨ c.toNat = 39 ∨ c.toNat = 40 ∨ c.toNat = 41 ∨ c.toNat = 42
    · rw [if_pos hres] at hx
      simp only [List.mem_cons, List.not_mem_nil, or_false] at hx
      have hlt : c.toNat < 0x110000 := char_toNat_lt c
      rcases hx with rfl | rfl | rfl
      · exact Or.inl (charToNat_ofNat 37 (Or.inl (by omega)))
      · have h := hexDigitLower_toNat (c.toNat / 16) (by omega)
        rw [qChar, h]
        split_ifs with h10 <;> omega
      · have h := hexDigitLower_toNat (c.toNat % 16) (by omega)
        rw [qChar, h]
        split_ifs with h10 <;> omega
    · rw [if_neg hres] at hx
      simp only [List.mem_singleton] at hx
      subst hx
      simp only [uriUnreserved, Bool.or_eq_true, Bool.and_eq_true, decide_eq_true_eq] at hu
      rw [qChar]
      omega
  · rw [if_neg hu] at hx
    by_cases hc : c.toNat = 44
    · rw [if_pos hc] at hx
      simp only [List.mem_singleton] at hx
      subst hx
      exact Or.inr (Or.inl (charToNat_ofNat 44 (Or.inl (by omega))))
    · rw [if_neg hc] at hx
      simp only [List.mem_flatMap] at hx
      obtain ⟨b, hb, hxb⟩ := hx
      have hb256 : b < 256 := (utf8Bytes_facts c.toNat (char_toNat_lt c) b hb).1
      rw [pctEncodeByte] at hxb
      simp only [List.mem_cons, List.not_mem_nil, or_false] at hxb
      rcases hxb with rfl | rfl | rfl
      · exact Or.inl (charToNat_ofNat 37 (Or.inl (by omega)))
      · have h := hexDigitUpper_toNat (b / 16) (by omega)
        rw [qChar, h]
        split_ifs with h10 <;> omega
      · have h := hexDigitUpper_toNat (b % 16) (by omega)
        rw [qChar, h]
        split_ifs with h10 <;> omega

theorem encode_qChar (s : List Char) : ∀ x ∈ encode s, qChar x := by
  rw [encode_eq_flatMap]
  intro x hx
  simp only [List.mem_flatMap] at hx
  obtain ⟨c, _, hxc⟩ := hx
  exact encChar_qChar c x hxc

theorem qChar_not_sep (x : Char) (h : qChar x) :
    x ≠ Char.ofNat 38 ∧ x ≠ Char.ofNat 61 ∧ x ≠ Char.ofNat 43 ∧ isJsSpace x = false := by
  rw [qChar] at h
  refine ⟨?_, ?_, ?_, ?_⟩
  · intro he
    have : x.toNat = 38 := by rw [he]; exact charToNat_ofNat 38 (Or.inl (by omega))
    omega
  · intro he
    have : x.toNat = 61 := by rw [he]; exact charToNat_ofNat 61 (Or.inl (by omega))
    omega
  · intro he
    have : x.toNat = 43 := by rw [he]; exact charToNat_ofNat 43 (Or.inl (by omega))
    omega
  · simp only [isJsSpace, Bool.or_eq_false_iff, Bool.and_eq_false_iff, decide_eq_false_iff_not]
    omega

theorem encChar_ne_nil (c : Char) : encChar c ≠ [] := by
  rw [encChar]
  split_ifs with hu hres hc
  · exact List.cons_ne_nil _ _
  · exact List.cons_ne_nil _ _
  · exact List.cons_ne_nil _ _
  · have hv := char_valid_nat c
    rw [utf8Bytes]
    split_ifs <;> simp [pctEncodeByte]

theorem encode_ne_nil (s : List Char) (h : s ≠ []) : encode s ≠ [] := by
  rw [encode_eq_flatMap]
  cases s with
  | nil => exact absurd rfl h
  | cons c r =>
    rw [List.flatMap_cons]
    intro hcon
    exact encChar_ne_nil c (List.append_eq_nil.mp hcon).1

theorem plusToSpace_id (s : List Char) (h : ∀ x ∈ s, x ≠ Char.ofNat 43) :
    plusToSpace s = s := by
  induction s with
  | nil => rfl
  | cons c r ih =>
    rw [plusToSpace, List.map_cons, if_neg (h c (List.mem_cons_self _ _))]
    rw [show (List.map (fun c => if c = Char.ofNat 43 then Char.ofNat 32 else c) r) =
      plusToSpace r from rfl, ih (fun x hx => h x (List.mem_cons_of_mem _ hx))]

theorem dictGet_append_none (a b : List (String × QVal)) (k : String)
    (h : dictGet a k = none) : dictGet (a ++ b) k = dictGet b k := by
  induction a with
  | nil => rfl
  | cons kv rest ih =>
    rw [dictGet] at h
    rw [List.cons_append, dictGet]
    by_cases hk : kv.1 = k
    · rw [if_pos hk] at h
      exact absurd h (by simp)
    · rw [if_neg hk] at h ⊢
      exact ih h

theorem dictGet_snoc_self (a : List (String × QVal)) (k : String) (v : QVal)
    (h : dictGet a k = none) : dictGet (a ++ [(k, v)]) k = some v := by
  rw [dictGet_append_none a _ k h, dictGet, if_pos rfl]

theorem dictSet_snoc (a : List (String × QVal)) (k : String) (v w : QVal)
    (h : dictGet a k = none) : dictSet (a ++ [(k, w)]) k v = a ++ [(k, v)] := by
  induction a with
  | nil =>
    rw [List.nil_append, dictSet, if_pos rfl]
    rfl
  | cons kv rest ih =>
    rw [dictGet] at h
    by_cases hk : kv.1 = k
    · rw [if_pos hk] at h
      exact absurd h (by simp)
    · rw [if_neg hk] at h
      show dictSet ((kv.1, kv.2) :: (rest ++ [(k, w)])) k v = _
      rw [dictSet, if_neg hk, ih h]
      rfl

theorem storeParam_new (acc : List (String × QVal)) (k : String) (val : Option String)
    (h : dictGet acc k = none) :
    storeParam acc k val = acc ++ [(k, val.elim QVal.null QVal.str)] := by
  rw [storeParam, h]

theorem storeParam_str (acc : List (String × QVal)) (k s : String) (val : Option String)
    (h : dictGet acc k = some (QVal.str s)) :
    storeParam acc k val = dictSet acc k (QVal.arr [QSv.str s, val.elim QSv.null QSv.str]) := by
  rw [storeParam, h]

theorem storeParam_null (acc : List (String × QVal)) (k : String) (val : Option String)
    (h : dictGet acc k = some QVal.null) :
    storeParam acc k val = dictSet acc k (QVal.arr [QSv.null, val.elim QSv.null QSv.str]) := by
  rw [storeParam, h]

theorem storeParam_arr (acc : List (String × QVal)) (k : String) (xs : List QSv)
    (val : Option String) (h : dictGet acc k = some (QVal.arr xs)) :
    storeParam acc k val = dictSet acc k (QVal.arr (xs ++ [val.elim QSv.null QSv.str])) := by
  rw [storeParam, h]

theorem splitOn_no_sep (xs : List Char) (sep : Char) (h : sep ∉ xs) :
    xs.splitOn sep = [xs] := by
  apply List.splitOnP_eq_single
  intro x hx
  simp only [beq_iff_eq]
  intro he
  exact h (he ▸ hx)

theorem splitOn_once (a b : List Char) (sep : Char) (h : sep ∉ a) :
    (a ++ sep :: b).splitOn sep = a :: b.splitOn sep := by
  apply List.splitOnP_first
  · intro x hx
    simp only [beq_iff_eq]
    intro he
    exact h (he ▸ hx)
  · simp

theorem string_mk_toList (k : String) : String.mk k.toList = k := rfl

theorem parseParam_bare (acc : List (String × QVal)) (k : String) :
    parseParam acc (encode k.toList) = some (storeParam acc k none) := by
  have hno43 : ∀ x ∈ encode k.toList, x ≠ Char.ofNat 43 :=
    fun x hx => (qChar_not_sep x (encode_qChar _ x hx)).2.2.1
  have hno61 : Char.ofNat 61 ∉ encode k.toList :=
    fun hc => (qChar_not_sep _ (encode_qChar _ _ hc)).2.1 rfl
  rw [parseParam, plusToSpace_id _ hno43, splitOn_no_sep _ _ hno61]
  simp only []
  rw [decode_encode]
  rfl

theorem parseParam_kv (acc : List (String × QVal)) (k s : String) :
    parseParam acc (encode k.toList ++ Char.ofNat 61 :: encode s.toList) =
      some (storeParam acc k (some s)) := by
  have hno43 : ∀ x ∈ encode k.toList ++ Char.ofNat 61 :: encode s.toList,
      x ≠ Char.ofNat 43 := by
    intro x hx
    rcases List.mem_append.mp hx with hx | hx
    · exact (qChar_not_sep x (encode_qChar _ x hx)).2.2.1
    · rcases List.mem_cons.mp hx with rfl | hx
      · intro he
        have h1 : (Char.ofNat 61).toNat = 61 := charToNat_ofNat 61 (Or.inl (by omega))
        have h2 : (Char.ofNat 61).toNat = 43 := by
          rw [he]
          exact charToNat_ofNat 43 (Or.inl (by omega))
        omega
      · exact (qChar_not_sep x (encode_qChar _ x hx)).2.2.1
  have hnoK : Char.ofNat 61 ∉ encode k.toList :=
    fun hc => (qChar_not_sep _ (encode_qChar _ _ hc)).2.1 rfl
  have hnoS : Char.ofNat 61 ∉ encode s.toList :=
    fun hc => (qChar_not_sep _ (encode_qChar _ _ hc)).2.1 rfl
  rw [parseParam, plusToSpace_id _ hno43, splitOn_once _ _ _ hnoK,
    splitOn_no_sep _ _ hnoS]
  simp only []
  rw [decode_encode]
  simp only []
  rw [show List.intercalate [Char.ofNat 61] [encode s.toList] = encode s.toList by
    simp [List.intercalate]]
  rw [decode_encode]
  rfl

theorem parseFold_append (xs ys : List (List Char)) (acc : List (String × QVal)) :
    (xs ++ ys).foldlM parseParam acc =
      (xs.foldlM parseParam acc).bind (fun a => ys.foldlM parseParam a) := by
  induction xs generalizing acc with
  | nil => rfl
  | cons x r ih =>
    show (parseParam acc x).bind (fun a => (r ++ ys).foldlM parseParam a) =
      ((parseParam acc x).bind (fun a => r.foldlM parseParam a)).bind
        (fun a => ys.foldlM parseParam a)
    cases parseParam acc x with
    | none => rfl
    | some a => exact ih a

theorem qsvVal_elim (e : QSv) (he : e ≠ QSv.undef) :
    (qsvVal e).elim QSv.null QSv.str = e := by
  cases e with
  | str s => rfl
  | null => rfl
  | undef => exact absurd rfl he

theorem parseParam_elem (acc : List (String × QVal)) (k : String) (e : QSv)
    (p : List Char) (hp : elemPart k e = some p) :
    parseParam acc p = some (storeParam acc k (qsvVal e)) := by
  cases e with
  | str s =>
    rw [elemPart] at hp
    rw [← Option.some_inj.mp hp]
    exact parseParam_kv acc k s
  | null =>
    rw [elemPart] at hp
    rw [← Option.some_inj.mp hp]
    exact parseParam_bare acc k
  | undef => exact absurd hp (by rw [elemPart]; exact Option.noConfusion)

theorem arrParts_fold (k : String) (rest : List QSv) :
    ∀ (acc : List (String × QVal)) (ys : List QSv),
      dictGet acc k = none → (∀ x ∈ rest, x ≠ QSv.undef) →
      (rest.filterMap (elemPart k)).foldlM parseParam (acc ++ [(k, QVal.arr ys)]) =
        some (acc ++ [(k, QVal.arr (ys ++ rest))]) := by
  induction rest with
  | nil =>
    intro acc ys _ _
    rw [List.append_nil]
    rfl
  | cons e rest2 ih =>
    intro acc ys hk hne
    have he : e ≠ QSv.undef := hne e (List.mem_cons_self _ _)
    obtain ⟨p, hp⟩ : ∃ p, elemPart k e = some p := by
      cases e with
      | str s => exact ⟨_, rfl⟩
      | null => exact ⟨_, rfl⟩
      | undef => exact absurd rfl he
    rw [List.filterMap_cons, hp]
    show (parseParam (acc ++ [(k, QVal.arr ys)]) p).bind
      (fun a => (rest2.filterMap (elemPart k)).foldlM parseParam a) = _
    rw [parseParam_elem _ k e p hp,
      storeParam_arr _ k ys _ (dictGet_snoc_self acc k _ hk),
      dictSet_snoc acc k _ _ hk]
    show (rest2.filterMap (elemPart k)).foldlM parseParam
      (acc ++ [(k, QVal.arr (ys ++ [(qsvVal e).elim QSv.null QSv.str]))]) = _
    rw [qsvVal_elim e he, ih acc (ys ++ [e]) hk
      (fun x hx => hne x (List.mem_cons_of_mem _ hx))]
    rw [List.append_assoc, List.singleton_append]

theorem entryParts_fold (k : String) (v : QVal) (acc : List (String × QVal))
    (hk : dictGet acc k = none) (hg : goodQVal k v = true) :
    (entryParts k v).foldlM parseParam acc = some (acc ++ [(k, v)]) := by
  cases v with
  | undef => exact absurd hg (by rw [goodQVal]; exact Bool.false_ne_true)
  | null =>
    rw [entryParts]
    show (parseParam acc (encode k.toList)).bind (fun a => ([] : List (List Char)).foldlM parseParam a) = _
    rw [parseParam_bare acc k, storeParam_new acc k none hk]
    rfl
  | str s =>
    rw [entryParts]
    show (parseParam acc (encode k.toList ++ Char.ofNat 61 :: encode s.toList)).bind
      (fun a => ([] : List (List Char)).foldlM parseParam a) = _
    rw [parseParam_kv acc k s, storeParam_new acc k (some s) hk]
    rfl
  | arr xs =>
    rw [goodQVal, Bool.and_eq_true, decide_eq_true_eq, List.all_eq_true] at hg
    obtain ⟨hlen, hne⟩ := hg
    match xs, hlen with
    | e1 :: e2 :: rest2, _ =>
      have he1 : e1 ≠ QSv.undef := by
        have := hne e1 (List.mem_cons_self _ _)
        simpa using this
      have he2 : e2 ≠ QSv.undef := by
        have := hne e2 (List.mem_cons_of_mem _ (List.mem_cons_self _ _))
        simpa using this
      obtain ⟨p1, hp1⟩ : ∃ p, elemPart k e1 = some p := by
        cases e1 with
        | str s => exact ⟨_, rfl⟩
        | null => exact ⟨_, rfl⟩
        | undef => exact absurd rfl he1
      obtain ⟨p2, hp2⟩ : ∃ p, elemPart k e2 = some p := by
        cases e2 with
        | str s => exact ⟨_, rfl⟩
        | null => exact ⟨_, rfl⟩
        | undef => exact absurd rfl he2
      rw [entryParts, List.filterMap_cons, hp1, List.filterMap_cons, hp2]
      show (parseParam acc p1).bind (fun a => ((p2 :: rest2.filterMap (elemPart k)) :
        List (List Char)).foldlM parseParam a) = _
      rw [parseParam_elem acc k e1 p1 hp1, storeParam_new acc k _ hk]
      have hsc : (Option.elim (qsvVal e1) QVal.null QVal.str) =
          match e1 with
          | QSv.str s => QVal.str s
          | QSv.null => QVal.null
          | QSv.undef => QVal.null := by
        cases e1 <;> rfl
      show (parseParam (acc ++ [(k, Option.elim (qsvVal e1) QVal.null QVal.str)]) p2).bind
        (fun a => (rest2.filterMap (elemPart k)).foldlM parseParam a) = _
      rw [parseParam_elem _ k e2 p2 hp2]
      have hstore : storeParam (acc ++ [(k, Option.elim (qsvVal e1) QVal.null QVal.str)]) k
          (qsvVal e2) = acc ++ [(k, QVal.arr [e1, e2])] := by
        cases e1 with
        | str s =>
          show storeParam (acc ++ [(k, QVal.str s)]) k (qsvVal e2) = _
          rw [storeParam_str _ k s _ (dictGet_snoc_self acc k _ hk), dictSet_snoc acc k _ _ hk,
            qsvVal_elim e2 he2]
        | null =>
          show storeParam (acc ++ [(k, QVal.null)]) k (qsvVal e2) = _
          rw [storeParam_null _ k _ (dictGet_snoc_self acc k _ hk), dictSet_snoc acc k _ _ hk,
            qsvVal_elim e2 he2]
        | undef => exact absurd rfl he1
      rw [hstore]
      show (rest2.filterMap (elemPart k)).foldlM parseParam
        (acc ++ [(k, QVal.arr [e1, e2])]) = _
      rw [arrParts_fold k rest2 acc [e1, e2] hk
        (fun x hx => of_decide_eq_true
          (hne x (List.mem_cons_of_mem _ (List.mem_cons_of_mem _ hx))))]
      rfl

theorem queryParts_fold (m : List (String × QVal)) :
    ∀ acc : List (String × QVal), (m.map Prod.fst).Nodup →
      (∀ kv ∈ m, dictGet acc kv.1 = none) →
      (∀ kv ∈ m, goodQVal kv.1 kv.2 = true) →
      (m.flatMap (fun kv => entryParts kv.1 kv.2)).foldlM parseParam acc =
        some (acc ++ m) := by
  induction m with
  | nil =>
    intro acc _ _ _
    rw [List.append_nil]
    rfl
  | cons kv r ih =>
    intro acc hnd hdisj hg
    rw [List.map_cons, List.nodup_cons] at hnd
    rw [List.flatMap_cons, parseFold_append,
      entryParts_fold kv.1 kv.2 acc (hdisj kv (List.mem_cons_self _ _))
        (hg kv (List.mem_cons_self _ _))]
    show (r.flatMap (fun kv => entryParts kv.1 kv.2)).foldlM parseParam
      (acc ++ [(kv.1, kv.2)]) = _
    have hdisj2 : ∀ kv2 ∈ r, dictGet (acc ++ [(kv.1, kv.2)]) kv2.1 = none := by
      intro kv2 hkv2
      rw [dictGet_append_none acc _ _ (hdisj kv2 (List.mem_cons_of_mem _ hkv2)), dictGet]
      rw [if_neg]
      · rfl
      · intro he
        exact hnd.1 (he ▸ List.mem_map_of_mem Prod.fst hkv2)
    rw [ih (acc ++ [(kv.1, kv.2)]) hnd.2 hdisj2
      (fun kv2 hkv2 => hg kv2 (List.mem_cons_of_mem _ hkv2))]
    rw [List.append_assoc, List.singleton_append]

theorem stringifySegment_eq_intercalate (k : String) (v : QVal) :
    stringifySegment k v = List.intercalate [Char.ofNat 38] (entryParts k v) := by
  cases v with
  | undef => simp [stringifySegment, entryParts, List.intercalate]
  | null => simp [stringifySegment, entryParts, List.intercalate]
  | str s => simp [stringifySegment, entryParts, List.intercalate]
  | arr xs =>
    rw [stringifySegment, entryParts]
    have hf : xs.filterMap (fun v2 =>
        match v2 with
        | QSv.undef => none
        | QSv.null => some (encode k.toList)
        | QSv.str s => some (encode k.toList ++ Char.ofNat 61 :: encode s.toList)) =
        xs.filterMap (elemPart k) :=
      List.filterMap_congr (fun e _ => by cases e <;> rfl)
    rw [hf]

theorem string_ne_nil_toList (k : String) (h : k ≠ "") : k.toList ≠ [] := by
  intro hc
  apply h
  have : String.mk k.toList = String.mk [] := by rw [hc]
  exact this

theorem entryParts_shape (k : String) (v : QVal) (hg : goodQVal k v = true) :
    (∃ q, entryParts k v = [q] ∧ q ≠ []) ∨
      (∃ q1 q2 qs, entryParts k v = q1 :: q2 :: qs) := by
  cases v with
  | undef => exact absurd hg (by rw [goodQVal]; exact Bool.false_ne_true)
  | null =>
    rw [goodQVal, decide_eq_true_eq] at hg
    exact Or.inl ⟨_, rfl, encode_ne_nil _ (string_ne_nil_toList k hg)⟩
  | str s =>
    refine Or.inl ⟨_, rfl, ?_⟩
    intro hc
    exact absurd (List.append_eq_nil.mp hc).2 (List.cons_ne_nil _ _)
  | arr xs =>
    rw [goodQVal, Bool.and_eq_true, decide_eq_true_eq, List.all_eq_true] at hg
    obtain ⟨hlen, hne⟩ := hg
    match xs, hlen with
    | e1 :: e2 :: rest2, _ =>
      have he1 : e1 ≠ QSv.undef := by
        have := hne e1 (List.mem_cons_self _ _)
        simpa using this
      have he2 : e2 ≠ QSv.undef := by
        have := hne e2 (List.mem_cons_of_mem _ (List.mem_cons_self _ _))
        simpa using this
      obtain ⟨p1, hp1⟩ : ∃ p, elemPart k e1 = some p := by
        cases e1 with
        | str s => exact ⟨_, rfl⟩
        | null => exact ⟨_, rfl⟩
        | undef => exact absurd rfl he1
      obtain ⟨p2, hp2⟩ : ∃ p, elemPart k e2 = some p := by
        cases e2 with
        | str s => exact ⟨_, rfl⟩
        | null => exact ⟨_, rfl⟩
        | undef => exact absurd rfl he2
      rw [entryParts, List.filterMap_cons, hp1, List.filterMap_cons, hp2]
      exact Or.inr ⟨_, _, _, rfl⟩

theorem entryParts_ne_nil (k : String) (v : QVal) (hg : goodQVal k v = true) :
    entryParts k v ≠ [] := by
  rcases entryParts_shape k v hg with ⟨q, hq, _⟩ | ⟨q1, q2, qs, hq⟩ <;> rw [hq] <;>
    exact List.cons_ne_nil _ _

theorem intercalate_two_ne_nil (sep : List Char) (hsep : sep ≠ []) (q1 q2 : List Char)
    (qs : List (List Char)) : List.intercalate sep (q1 :: q2 :: qs) ≠ [] := by
  rw [show List.intercalate sep (q1 :: q2 :: qs) =
    q1 ++ sep ++ List.intercalate sep (q2 :: qs) by
      simp [List.intercalate, List.intersperse]]
  intro hc
  exact hsep (List.append_eq_nil.mp (List.append_eq_nil.mp hc).1).2

theorem intercalate_append_parts (sep : List Char) (ys : List (List Char)) :
    ∀ xs : List (List Char), xs ≠ [] → ys ≠ [] →
      List.intercalate sep (xs ++ ys) =
        List.intercalate sep xs ++ sep ++ List.intercalate sep ys := by
  intro xs
  induction xs with
  | nil => intro h _; exact absurd rfl h
  | cons x xs2 ih =>
    intro _ hy
    cases xs2 with
    | nil =>
      cases ys with
      | nil => exact absurd rfl hy
      | cons y ys2 =>
        rw [show ([x] ++ y :: ys2 : List (List Char)) = x :: y :: ys2 from rfl]
        rw [show List.intercalate sep (x :: y :: ys2) =
          x ++ sep ++ List.intercalate sep (y :: ys2) by
            simp [List.intercalate, List.intersperse]]
        rw [show List.intercalate sep [x] = x by simp [List.intercalate]]
    | cons x2 xs3 =>
      rw [show ((x :: x2 :: xs3) ++ ys : List (List Char)) = x :: ((x2 :: xs3) ++ ys) from rfl]
      rw [show List.intercalate sep (x :: ((x2 :: xs3) ++ ys)) =
        x ++ sep ++ List.intercalate sep ((x2 :: xs3) ++ ys) by
          cases hxy : (x2 :: xs3) ++ ys with
          | nil => exact absurd hxy (by simp)
          | cons a l => simp [List.intercalate, List.intersperse]]
      rw [ih (List.cons_ne_nil _ _) hy]
      rw [show List.intercalate sep (x :: x2 :: xs3) =
        x ++ sep ++ List.intercalate sep (x2 :: xs3) by
          simp [List.intercalate, List.intersperse]]
      simp [List.append_assoc]

theorem stringifySegment_ne_nil (k : String) (v : QVal) (hg : goodQVal k v = true) :
    stringifySegment k v ≠ [] := by
  rw [stringifySegment_eq_intercalate]
  rcases entryParts_shape k v hg with ⟨q, hq, hqne⟩ | ⟨q1, q2, qs, hq⟩ <;> rw [hq]
  · rw [show List.intercalate [Char.ofNat 38] [q] = q by simp [List.intercalate]]
    exact hqne
  · exact intercalate_two_ne_nil _ (List.cons_ne_nil _ _) _ _ _

theorem flatParts_ne_nil (m : List (String × QVal)) (hm : m ≠ [])
    (hg : ∀ kv ∈ m, goodQVal kv.1 kv.2 = true) :
    m.flatMap (fun kv => entryParts kv.1 kv.2) ≠ [] := by
  cases m with
  | nil => exact absurd rfl hm
  | cons kv r =>
    rw [List.flatMap_cons]
    intro hc
    exact entryParts_ne_nil kv.1 kv.2 (hg kv (List.mem_cons_self _ _))
      (List.append_eq_nil.mp hc).1

theorem flatParts_intercalate_ne_nil (m : List (String × QVal)) (hm : m ≠ [])
    (hg : ∀ kv ∈ m, goodQVal kv.1 kv.2 = true) :
    List.intercalate [Char.ofNat 38] (m.flatMap (fun kv => entryParts kv.1 kv.2)) ≠ [] := by
  cases m with
  | nil => exact absurd rfl hm
  | cons kv r =>
    rw [List.flatMap_cons]
    rcases entryParts_shape kv.1 kv.2 (hg kv (List.mem_cons_self _ _)) with
      ⟨q, hq, hqne⟩ | ⟨q1, q2, qs, hq⟩ <;> rw [hq]
    · cases hrf : r.flatMap (fun kv => entryParts kv.1 kv.2) with
      | nil =>
        rw [show ([q] ++ [] : List (List Char)) = [q] by simp]
        rw [show List.intercalate [Char.ofNat 38] [q] = q by simp [List.intercalate]]
        exact hqne
      | cons p ps =>
        rw [show ([q] ++ p :: ps : List (List Char)) = q :: p :: ps from rfl]
        exact intercalate_two_ne_nil _ (List.cons_ne_nil _ _) _ _ _
    · rw [show ((q1 :: q2 :: qs) ++ r.flatMap (fun kv => entryParts kv.1 kv.2) :
        List (List Char)) = q1 :: q2 :: (qs ++ _) from rfl]
      exact intercalate_two_ne_nil _ (List.cons_ne_nil _ _) _ _ _

theorem intercalate_map_eq_flatMap (m : List (String × QVal))
    (hg : ∀ kv ∈ m, goodQVal kv.1 kv.2 = true) :
    List.intercalate [Char.ofNat 38] (m.map (fun kv => stringifySegment kv.1 kv.2)) =
      List.intercalate [Char.ofNat 38] (m.flatMap (fun kv => entryParts kv.1 kv.2)) := by
  induction m with
  | nil => rfl
  | cons kv r ih =>
    rw [List.map_cons, List.flatMap_cons]
    cases r with
    | nil =>
      simp only [List.map_nil, List.flatMap_nil, List.append_nil]
      rw [show List.intercalate [Char.ofNat 38] [stringifySegment kv.1 kv.2] =
          stringifySegment kv.1 kv.2 by simp [List.intercalate]]
      exact stringifySegment_eq_intercalate kv.1 kv.2
    | cons kv2 r2 =>
      have hg2 : ∀ kv3 ∈ kv2 :: r2, goodQVal kv3.1 kv3.2 = true :=
        fun kv3 h3 => hg kv3 (List.mem_cons_of_mem _ h3)
      rw [show List.map (fun kv => stringifySegment kv.1 kv.2) (kv2 :: r2) =
        stringifySegment kv2.1 kv2.2 :: List.map (fun kv => stringifySegment kv.1 kv.2) r2
        from rfl]
      rw [show List.intercalate [Char.ofNat 38] (stringifySegment kv.1 kv.2 ::
          stringifySegment kv2.1 kv2.2 :: List.map (fun kv => stringifySegment kv.1 kv.2) r2) =
        stringifySegment kv.1 kv.2 ++ [Char.ofNat 38] ++
          List.intercalate [Char.ofNat 38] (stringifySegment kv2.1 kv2.2 ::
            List.map (fun kv => stringifySegment kv.1 kv.2) r2) by
        simp [List.intercalate, List.intersperse]]
      rw [show (stringifySegment kv2.1 kv2.2 ::
          List.map (fun kv => stringifySegment kv.1 kv.2) r2) =
        List.map (fun kv => stringifySegment kv.1 kv.2) (kv2 :: r2) from rfl]
      rw [ih hg2]
      rw [intercalate_append_parts _ _ _
        (entryParts_ne_nil kv.1 kv.2 (hg kv (List.mem_cons_self _ _)))
        (flatParts_ne_nil (kv2 :: r2) (List.cons_ne_nil _ _) hg2)]
      rw [stringifySegment_eq_intercalate kv.1 kv.2]

theorem stringifyQuery_structure (m : List (String × QVal)) (hm : m ≠ [])
    (hg : ∀ kv ∈ m, goodQVal kv.1 kv.2 = true) :
    stringifyQuery m = Char.ofNat 63 ::
      List.intercalate [Char.ofNat 38] (m.flatMap (fun kv => entryParts kv.1 kv.2)) := by
  rw [stringifyQuery]
  rw [List.filter_eq_self.mpr (by
    intro a ha
    simp only [List.mem_map] at ha
    obtain ⟨kv, hkv, rfl⟩ := ha
    exact decide_eq_true (by
      intro hlen
      exact stringifySegment_ne_nil kv.1 kv.2 (hg kv hkv)
        (List.length_eq_zero.mp hlen)))]
  rw [intercalate_map_eq_flatMap m hg,
    if_neg (flatParts_intercalate_ne_nil m hm hg)]

theorem mem_intercalate_sep (sep : List Char) (parts : List (List Char)) (x : Char)
    (hx : x ∈ List.intercalate sep parts) : x ∈ sep ∨ ∃ p ∈ parts, x ∈ p := by
  induction parts with
  | nil =>
    rw [show List.intercalate sep ([] : List (List Char)) = [] by simp [List.intercalate]] at hx
    exact absurd hx (List.not_mem_nil x)
  | cons p rest ih =>
    cases rest with
    | nil =>
      rw [show List.intercalate sep [p] = p by simp [List.intercalate]] at hx
      exact Or.inr ⟨p, List.mem_cons_self _ _, hx⟩
    | cons q r2 =>
      rw [show List.intercalate sep (p :: q :: r2) =
        p ++ sep ++ List.intercalate sep (q :: r2) by
          simp [List.intercalate, List.intersperse]] at hx
      rcases List.mem_append.mp hx with hx | hx
      · rcases List.mem_append.mp hx with hx | hx
        · exact Or.inr ⟨p, List.mem_cons_self _ _, hx⟩
        · exact Or.inl hx
      · rcases ih hx with hx | ⟨p2, hp2, hxp2⟩
        · exact Or.inl hx
        · exact Or.inr ⟨p2, List.mem_cons_of_mem _ hp2, hxp2⟩

theorem kvPart_chars (k s : String) (x : Char)
    (hx : x ∈ encode k.toList ++ Char.ofNat 61 :: encode s.toList) :
    qChar x ∨ x = Char.ofNat 61 := by
  rcases List.mem_append.mp hx with hx | hx
  · exact Or.inl (encode_qChar _ x hx)
  · rcases List.mem_cons.mp hx with rfl | hx
    · exact Or.inr rfl
    · exact Or.inl (encode_qChar _ x hx)

theorem entryParts_chars (k : String) (v : QVal) (p : List Char) (hp : p ∈ entryParts k v) :
    ∀ x ∈ p, qChar x ∨ x = Char.ofNat 61 := by
  intro x hx
  cases v with
  | undef => exact absurd hp (List.not_mem_nil p)
  | null =>
    rw [entryParts, List.mem_singleton] at hp
    subst hp
    exact Or.inl (encode_qChar _ x hx)
  | str s =>
    rw [entryParts, List.mem_singleton] at hp
    subst hp
    exact kvPart_chars k s x hx
  | arr xs =>
    rw [entryParts, List.mem_filterMap] at hp
    obtain ⟨e, _, he⟩ := hp
    cases e with
    | str s =>
      rw [elemPart, Option.some_inj] at he
      subst he
      exact kvPart_chars k s x hx
    | null =>
      rw [elemPart, Option.some_inj] at he
      subst he
      exact Or.inl (encode_qChar _ x hx)
    | undef => exact absurd he (by rw [elemPart]; exact Option.noConfusion)

theorem dropWhile_all_false (p : Char → Bool) (s : List Char) (h : ∀ x ∈ s, p x = false) :
    s.dropWhile p = s := by
  cases s with
  | nil => rfl
  | cons c r =>
    rw [List.dropWhile_cons, if_neg]
    rw [h c (List.mem_cons_self _ _)]
    exact Bool.false_ne_true

theorem jsTrim_id (s : List Char) (h : ∀ x ∈ s, isJsSpace x = false) : jsTrim s = s := by
  rw [jsTrim, dropWhile_all_false _ _ h,
    dropWhile_all_false _ _ (fun x hx => h x (List.mem_reverse.mp hx)), List.reverse_reverse]

theorem stripLead_q (rest : List Char) : stripLead (Char.ofNat 63 :: rest) = rest := by
  rw [stripLead, if_pos (Or.inl rfl)]

/-- C7: Corrected query round trip.  `parseQuery (stringifyQuery m) = m`
holds for query mappings with pairwise-distinct keys whose values are
strings, `null` under a nonempty key, or arrays of at least two
non-`undefined` elements; keys and values may contain `! ' ( ) *`,
commas, spaces and arbitrary Unicode.  (The unrestricted claim is false:
see the counterexample theorem, a singleton array collapses to a
scalar.) -/
theorem parseQuery_stringifyQuery_roundtrip (m : List (String × QVal))
    (hnd : (m.map Prod.fst).Nodup)
    (hg : ∀ kv ∈ m, goodQVal kv.1 kv.2 = true) :
    parseQuery (stringifyQuery m) = some m := by
  cases m with
  | nil => rfl
  | cons kv0 r0 =>
    have hm : (kv0 :: r0 : List (String × QVal)) ≠ [] := List.cons_ne_nil _ _
    have hchars : ∀ x ∈ List.intercalate [Char.ofNat 38]
        ((kv0 :: r0).flatMap (fun kv => entryParts kv.1 kv.2)), isJsSpace x = false := by
      intro x hx
      rcases mem_intercalate_sep _ _ x hx with hx | ⟨p, hp, hxp⟩
      · rw [List.mem_singleton] at hx
        subst hx
        decide
      · rw [List.mem_flatMap] at hp
        obtain ⟨kv2, _, hp2⟩ := hp
        rcases entryParts_chars kv2.1 kv2.2 p hp2 x hxp with hq | rfl
        · exact (qChar_not_sep x hq).2.2.2
        · decide
    have h38 : ∀ p ∈ (kv0 :: r0).flatMap (fun kv => entryParts kv.1 kv.2),
        Char.ofNat 38 ∉ p := by
      intro p hp hmem
      rw [List.mem_flatMap] at hp
      obtain ⟨kv2, _, hp2⟩ := hp
      rcases entryParts_chars kv2.1 kv2.2 p hp2 (Char.ofNat 38) hmem with hq | he
      · exact (qChar_not_sep _ hq).1 rfl
      · exact absurd he (by decide)
    rw [stringifyQuery_structure _ hm hg, parseQuery,
      jsTrim_id _ (by
        intro x hx
        rcases List.mem_cons.mp hx with rfl | hx
        · decide
        · exact hchars x hx),
      stripLead_q]
    rw [if_neg (flatParts_intercalate_ne_nil _ hm hg),
      List.splitOn_intercalate _ (Char.ofNat 38) h38 (flatParts_ne_nil _ hm hg),
      queryParts_fold (kv0 :: r0) [] hnd (fun _ _ => rfl) hg, List.nil_append]

/-- C7 (counterexample to the unrestricted claim): a singleton-array
value stringifies identically to the bare scalar, so the round trip
returns the scalar, not the array. -/
theorem parseQuery_stringifyQuery_cex :
    parseQuery (stringifyQuery [("a", QVal.arr [QSv.str "x"])]) =
        some [("a", QVal.str "x")] ∧
      QVal.arr [QSv.str "x"] ≠ QVal.str "x" := by
  constructor
  · decide
  · decide

theorem parseQuery_stringifyQuery_roundtrip_witness :
    parseQuery (stringifyQuery [("a,b!", QVal.str "x y"),
        ("k", QVal.arr [QSv.str "v", QSv.null]), ("n", QVal.null)]) =
      some [("a,b!", QVal.str "x y"),
        ("k", QVal.arr [QSv.str "v", QSv.null]), ("n", QVal.null)] :=
  parseQuery_stringifyQuery_roundtrip _ (by decide) (by decide)

-- ===== END THEOREMS =====

end VueRouterSpec
